import Mathlib

/-!
# openapi-schema-json: the schema normalisation engine of `main.go`

A shallow embedding of `main.go`.  The loaded OpenAPI document (the value the
kin-openapi loader returns) is the input; Go maps are association lists whose
order is the order in which `range` enumerates them; a nil-pointer dereference
is the result `none`.  Functions of imported packages (snaker, inflection,
strcase, `openapi3.Content.Get`, the Unicode case tables) are the fields of
`Lib`; `contentGet` is the lookup of kin-openapi, with its fallbacks.
-/

namespace OpenapiSchemaJson

/-! ## Standard-library string functions -/

/-- Go `strings.Split` for a one-character separator, on the characters of the string. -/
def splitChars (sep : Char) : List Char → List (List Char)
  | [] => [[]]
  | c :: cs =>
    if c = sep then [] :: splitChars sep cs
    else
      match splitChars sep cs with
      | [] => [[c]]
      | seg :: segs => (c :: seg) :: segs

/-- Go `strings.Split(s, sep)` with `sep` a one-character string. -/
def stringsSplit (s : String) (sep : Char) : List String :=
  (splitChars sep s.data).map String.mk

/-- The element `refs[len(refs)-1]`; `strings.Split` never returns an empty slice. -/
def lastOf (refs : List String) : String := refs.getLastD ""

/-- The last segment `refs := strings.Split(ref, "/"); refs[len(refs)-1]`. -/
def lastSegment (ref : String) : String := lastOf (stringsSplit ref '/')

/-- Go `strings.HasSuffix(s, suffix)`. -/
def hasSuffix (s suffix : String) : Bool := suffix.data.isSuffixOf s.data

/-- The slice `s[:len(s)-n]` where the last `n` bytes of `s` are `n` ASCII characters. -/
def dropRight (s : String) (n : Nat) : String := String.mk (s.data.take (s.data.length - n))

/-- Go `strings.Replace(s, old, new, 1)` for a non-empty `old`, on the
characters: the first occurrence of `old` is replaced. -/
def replaceFirst (old new_ : List Char) : List Char → List Char
  | [] => []
  | c :: cs =>
    if old.isPrefixOf (c :: cs) = true then new_ ++ (c :: cs).drop old.length
    else c :: replaceFirst old new_ cs

/-- Go `strings.Replace(s, old, new, 1)` with `old` not empty. -/
def stringsReplace1 (s old new_ : String) : String :=
  String.mk (replaceFirst old.data new_.data s.data)

/-- The comparison `a < b` of two Go strings, on their characters: the
lexicographic order of the bytes of UTF-8 text is that of its code points. -/
def ltChars : List Char → List Char → Bool
  | _, [] => false
  | [], _ :: _ => true
  | a :: as, b :: bs => if a < b then true else if b < a then false else ltChars as bs

/-- The comparison `a < b` on strings. -/
def stringLess (a b : String) : Bool := ltChars a.data b.data

/-- Go `unicode.ToLower`: the ASCII branch is spelled out, the case table for the
other runes is `toLowerCase`. -/
def unicodeToLower (toLowerCase : Char → Char) (r : Char) : Char :=
  if r.toNat ≤ 127 then
    if 'A'.toNat ≤ r.toNat ∧ r.toNat ≤ 'Z'.toNat then Char.ofNat (r.toNat + 32) else r
  else toLowerCase r

/-- Go `strings.ToLower`: maps `unicode.ToLower` over the runes. -/
def stringsToLower (toLowerCase : Char → Char) (s : String) : String :=
  String.mk (s.data.map (unicodeToLower toLowerCase))

/-! ## The loaded document (package openapi3), the fields `main.go` reads -/

mutual
/-- Type `openapi3.SchemaRef`: the `$ref` string and the resolved schema. -/
inductive SchemaRef where
  | mk (Ref : String) (Value : Schema)
/-- Type `openapi3.Schema`. -/
inductive Schema where
  | mk (Type_ Format Description : String) (Required : List String)
      (Items : Option SchemaRef) (Properties : List (String × SchemaRef))
end

def SchemaRef.Ref : SchemaRef → String
  | .mk r _ => r

def SchemaRef.Value : SchemaRef → Schema
  | .mk _ v => v

def Schema.Type_ : Schema → String
  | .mk t _ _ _ _ _ => t

def Schema.Format : Schema → String
  | .mk _ f _ _ _ _ => f

def Schema.Description : Schema → String
  | .mk _ _ d _ _ _ => d

def Schema.Required : Schema → List String
  | .mk _ _ _ r _ _ => r

def Schema.Items : Schema → Option SchemaRef
  | .mk _ _ _ _ i _ => i

def Schema.Properties : Schema → List (String × SchemaRef)
  | .mk _ _ _ _ _ p => p

/-- Type `openapi3.MediaType`; `Schema` is a pointer that may be nil. -/
structure MediaType where
  Schema : Option SchemaRef

/-- Type `openapi3.Response`. -/
structure Response where
  Description : Option String
  Content : List (String × MediaType)

/-- Type `openapi3.Parameter`; `Schema` is a pointer that may be nil. -/
structure Parameter where
  Name : String
  In : String
  Description : String
  Required : Bool
  Schema : Option SchemaRef

/-- Type `openapi3.Operation`. -/
structure Operation where
  OperationID : String
  Parameters : List Parameter
  Responses : List (String × Response)

/-- Type `openapi3.PathItem`, the five verbs `main.go` visits. -/
structure PathItem where
  Get : Option Operation
  Post : Option Operation
  Delete : Option Operation
  Patch : Option Operation
  Put : Option Operation

/-- Type `openapi3.Info`. -/
structure Info where
  Title : String
  Description : String
  Version : String
deriving DecidableEq

/-- Type `openapi3.T`, the loaded document: `Schemas` is `Components.Schemas`,
`Servers` holds the `URL` of each server, and `none` is a nil `Info` or a nil
`Servers`. -/
structure T where
  Info : Option Info
  Servers : Option (List String)
  Schemas : List (String × SchemaRef)
  Paths : List (String × PathItem)

/-- The imported functions `main.go` calls. -/
structure Lib where
  /-- Function `snaker.ForceCamelIdentifier` -/
  ForceCamelIdentifier : String → String
  /-- Function `snaker.CamelToSnakeIdentifier` -/
  CamelToSnakeIdentifier : String → String
  /-- Function `inflection.Plural` -/
  Plural : String → String
  /-- Function `inflection.Singular` -/
  Singular : String → String
  /-- Function `strcase.ToLowerCamel` -/
  ToLowerCamel : String → String
  /-- Function `unicode.To(unicode.LowerCase, r)` for the runes above `unicode.MaxASCII` -/
  ToLowerCase : Char → Char
  /-- Method `openapi3.Content.Get` -/
  ContentGet : List (String × MediaType) → String → Option MediaType

/-! ## `main.go` -/

/-- The map literal `baseTypes`; `none` is the `ok == false` of the lookup. -/
def baseTypes (s : String) : Option String :=
  if s = "double" then some "float64"
  else if s = "integer" then some "int64"
  else if s = "number" then some "int64"
  else if s = "boolean" then some "bool"
  else none

/-- The translation `if t, ok := baseTypes[baseType]; ok { baseType = t }`. -/
def translate (baseType : String) : String :=
  match baseTypes baseType with
  | some t => t
  | none => baseType

structure Type_ where
  Array : Bool := false
  Base : String := ""
  Format : String := ""
  Len : Int := 0
deriving DecidableEq

structure ColumnDef where
  Name : String := ""
  NameDbSingular : String := ""
  NameJson : String := ""
  GoName : String := ""
  GoVarName : String := ""
  GoNames : String := ""
  GoVarNames : String := ""
  NameExactJson : String := ""
  GoType : String := ""
  GoBaseType : String := ""
  Format : String := ""
  Size : Int := 0
  Type_ : Type_ := {}
  IsArray : Bool := false
  NotNull : Bool := false
  AutoIncrement : Bool := false
  Default : String := ""
  Comment : String := ""
  In : String := ""
  Key : String := ""
deriving DecidableEq

structure TypeDef where
  GoType : String := ""
  GoBaseType : String := ""
  Format : String := ""
  Size : Int := 0
  Type_ : Type_ := {}
  IsArray : Bool := false
  NotNull : Bool := false
  Comment : String := ""
deriving DecidableEq

structure Table where
  Name : String := ""
  NameDbSingular : String := ""
  GoName : String := ""
  GoVarName : String := ""
  GoNames : String := ""
  GoVarNames : String := ""
  GoShortName : String := ""
  Path : String := ""
  Verb : String := ""
  Comment : String := ""
  Key : String := ""
  Columns : List ColumnDef := []
  Responses : List (String × TypeDef) := []
  Kind : String := ""
deriving DecidableEq

/-- The assignment `m[k] = v` on a Go map kept as an association list. -/
def mapSet {β : Type} (m : List (String × β)) (k : String) (v : β) : List (String × β) :=
  match m with
  | [] => [(k, v)]
  | (k', v') :: rest => if k' = k then (k, v) :: rest else (k', v') :: mapSet rest k v

/-- The lookup `m[k]` on a Go map kept as an association list. -/
def mapGet {β : Type} (m : List (String × β)) (k : String) : Option β :=
  match m with
  | [] => none
  | (k', v') :: rest => if k' = k then some v' else mapGet rest k

/-- Method `Content.Get` of package openapi3 (kin-openapi), which `parseDDL`
calls with `application/json`: the entry of the media type itself, else of
the media type without its parameters, else of `type/*`, else of `*/*`. -/
def contentGet (content : List (String × MediaType)) (mime : String) : Option MediaType :=
  if mime = "" then mapGet content "*/*"
  else
    match mapGet content mime with
    | some v => some v
    | none =>
      let mime := String.mk (mime.data.takeWhile (fun c => decide (c ≠ ';')))
      match mapGet content mime with
      | some v => some v
      | none =>
        if '/' ∈ mime.data then
          let mime := String.mk (mime.data.takeWhile (fun c => decide (c ≠ '/'))) ++ "/*"
          match mapGet content mime with
          | some v => some v
          | none => mapGet content "*/*"
        else none

def plural (lib : Lib) (s : String) : String :=
  let out := lib.Plural s
  if out = "information" then "informations"
  else if out = "Information" then "Informations"
  else out

def lowerCamel (lib : Lib) (s : String) : String :=
  match s.data with
  | [] => ""
  | r :: rest => String.singleton (unicodeToLower lib.ToLowerCase r) ++ String.mk rest

/-- The call `shortNameRe.FindAllString(s, -1)` for the expression `[A-Z]`. -/
def shortNameRe_FindAllString (s : String) : List String :=
  (s.data.filter (fun c => decide ('A'.toNat ≤ c.toNat ∧ c.toNat ≤ 'Z'.toNat))).map String.singleton

def shortName (lib : Lib) (s : String) : String :=
  stringsToLower lib.ToLowerCase (String.join (shortNameRe_FindAllString s))

def stringSliceContains (in_ : List String) (s : String) : Bool :=
  match in_ with
  | [] => false
  | x :: rest => if x = s then true else stringSliceContains rest s

def ColumnDef.MarshalJSON (lib : Lib) (x : ColumnDef) : ColumnDef :=
  let Name := plural lib x.NameExactJson
  let GoVarName := lowerCamel lib x.GoName
  let NameJson := lib.ToLowerCamel x.NameExactJson
  let GoNames := plural lib x.GoName
  let GoNames := if hasSuffix GoNames "ids" = true then dropRight GoNames 3 ++ "Ids" else GoNames
  let GoVarNames := lib.ToLowerCamel GoNames
  let NameJson :=
    if NameJson ≠ "id" ∧ hasSuffix NameJson "id" = true then dropRight NameJson 2 ++ "Id"
    else NameJson
  let Key := NameJson
  let GoType := x.Type_.Base
  let Size := x.Type_.Len
  let IsArray := x.Type_.Array
  let GoType := if x.NotNull = false then "*" ++ GoType else GoType
  let GoBaseType := GoType
  let GoType := if x.Type_.Array = true then "[]" ++ GoType else GoType
  let Format := x.Type_.Format
  { x with
    Name := Name, GoVarName := GoVarName, NameJson := NameJson, GoNames := GoNames,
    GoVarNames := GoVarNames, Key := Key, GoType := GoType, Size := Size, IsArray := IsArray,
    GoBaseType := GoBaseType, Format := Format }

def TypeDef.MarshalJSON (x : TypeDef) : TypeDef :=
  let GoType := x.Type_.Base
  let Size := x.Type_.Len
  let IsArray := x.Type_.Array
  let GoType := if x.NotNull = false then "*" ++ GoType else GoType
  let GoBaseType := GoType
  let GoType := if x.Type_.Array = true then "[]" ++ GoType else GoType
  let Format := x.Type_.Format
  { x with
    GoType := GoType, Size := Size, IsArray := IsArray, GoBaseType := GoBaseType,
    Format := Format }

/-- The value `Table.MarshalJSON` hands to `json.Marshal`, with the columns and
the responses as their own `MarshalJSON` renders them. -/
def Table.MarshalJSON (lib : Lib) (x : Table) : Table :=
  let GoVarName := lowerCamel lib x.GoName
  let GoNames := plural lib x.GoName
  let GoVarNames := lowerCamel lib GoNames
  let GoShortName := shortName lib x.GoName
  { x with
    GoVarName := GoVarName, GoNames := GoNames, GoVarNames := GoVarNames,
    GoShortName := GoShortName
    Columns := x.Columns.map (ColumnDef.MarshalJSON lib)
    Responses := x.Responses.map (fun p => (p.1, TypeDef.MarshalJSON p.2)) }

/-- The base type of a schema property or of a response body (lines 211-231 and
338-358 of `main.go`): the item schema first, then the node's own `$ref`, then
its declared type, and the `baseTypes` translation last. -/
def resolveBase (_vv : SchemaRef) : String :=
  let vv := _vv.Value
  let baseType :=
    match vv.Items with
    | some items =>
      if items.Value.Format ≠ "" then items.Value.Format
      else if items.Value.Type_ = "object" then lastSegment items.Ref
      else items.Value.Type_
    | none =>
      if _vv.Ref ≠ "" then lastSegment _vv.Ref
      else vv.Type_
  translate baseType

/-- The `format` of a schema property or of a response body: the item's format
when there is one, else the node's own. -/
def resolveFormat (_vv : SchemaRef) : String :=
  let vv := _vv.Value
  let format :=
    match vv.Items with
    | some items => if items.Value.Format ≠ "" then items.Value.Format else ""
    | none => ""
  if format = "" ∧ vv.Format ≠ "" then vv.Format else format

/-- The body of `for kk, _vv := range v.Properties`: the column of one schema
property (`Required` is `v.Required`). -/
def propertyColumn (lib : Lib) (Required : List String) (kk : String) (_vv : SchemaRef) :
    ColumnDef :=
  let vv := _vv.Value
  let notNull := stringSliceContains Required kk
  let isArray := decide (vv.Type_ = "array")
  let baseType := resolveBase _vv
  let format := resolveFormat _vv
  let colName := lib.ForceCamelIdentifier kk
  let nameDb := lib.CamelToSnakeIdentifier colName
  let colDef : ColumnDef :=
    { GoName := colName
      NameDbSingular := nameDb
      NameExactJson := kk
      Type_ := { Base := baseType, Array := isArray, Format := format }
      NotNull := notNull
      Default := ""
      AutoIncrement := false
      Comment := vv.Description }
  let GoType := baseType
  let IsArray := colDef.Type_.Array
  let GoType := if colDef.NotNull = false then "*" ++ GoType else GoType
  let GoBaseType := GoType
  let GoType := if colDef.Type_.Array = true then "[]" ++ GoType else GoType
  let Format := colDef.Type_.Format
  { colDef with GoType := GoType, IsArray := IsArray, GoBaseType := GoBaseType, Format := Format }

/-- The body of `for _k, _v := range ddl`: the table of one named schema.
`copier.Copy(o, v)` copies nothing, no field of `openapi3.Schema` having the
name of a field of `Table`; `colMap` and `tblMap` are written and never read. -/
def schemaTable (lib : Lib) (_k : String) (_v : SchemaRef) : Table :=
  let v := _v.Value
  let GoName := lib.ForceCamelIdentifier _k
  let Key := GoName
  let NameDbSingular := lib.CamelToSnakeIdentifier GoName
  let Name := plural lib NameDbSingular
  let Comment := v.Description
  let GoVarName := lowerCamel lib (lib.Singular GoName)
  let GoNames := plural lib GoName
  let GoVarNames := lowerCamel lib (plural lib GoVarName)
  let GoShortName := shortName lib GoName
  let Columns := v.Properties.map (fun p => propertyColumn lib v.Required p.1 p.2)
  { Kind := "schema", GoName := GoName, Key := Key, NameDbSingular := NameDbSingular,
    Name := Name, Comment := Comment, GoVarName := GoVarName, GoNames := GoNames,
    GoVarNames := GoVarNames, GoShortName := GoShortName, Columns := Columns }

/-- The body of `for i, _vv := range v.Parameters`: the column of one operation
parameter; `none` is the nil dereference of `vv.Schema`. -/
def parameterColumn (lib : Lib) (vv : Parameter) : Option ColumnDef :=
  match vv.Schema with
  | none => none
  | some schema =>
    let notNull := vv.Required
    let format := schema.Value.Format
    let baseType := schema.Value.Type_
    let baseType := if baseType = "object" then lastSegment schema.Ref else schema.Value.Type_
    let baseType := translate baseType
    let colName := lib.ForceCamelIdentifier vv.Name
    let nameDb := lib.CamelToSnakeIdentifier colName
    let namesDb := plural lib nameDb
    let colDef : ColumnDef :=
      { GoName := colName
        NameDbSingular := nameDb
        Name := namesDb
        In := vv.In
        Type_ := { Base := baseType, Format := format }
        NotNull := notNull
        Comment := vv.Description }
    let GoType := baseType
    let IsArray := colDef.Type_.Array
    let GoType := if colDef.NotNull = false then "*" ++ GoType else GoType
    let GoBaseType := GoType
    let GoType := if colDef.Type_.Array = true then "[]" ++ GoType else GoType
    let Format := colDef.Type_.Format
    some { colDef with
      GoType := GoType, IsArray := IsArray, GoBaseType := GoBaseType, Format := Format }

/-- The loop `for i, _vv := range v.Parameters`, filling `o.Columns[i]`. -/
def parameterColumns (lib : Lib) : List Parameter → Option (List ColumnDef)
  | [] => some []
  | vv :: rest =>
    match parameterColumn lib vv with
    | none => none
    | some colDef =>
      match parameterColumns lib rest with
      | none => none
      | some cols => some (colDef :: cols)

/-- The `TypeDef` of one response whose JSON body has the schema `schema`
(lines 334-384 of `main.go`). -/
def responseTypeDef (schema : SchemaRef) (Description : Option String) : TypeDef :=
  let vv := schema.Value
  let isArray := decide (vv.Type_ = "array")
  let baseType := resolveBase schema
  let format := resolveFormat schema
  let comment := match Description with
    | some d => d
    | none => ""
  let colDef : TypeDef :=
    { Type_ := { Base := baseType, Format := format, Array := isArray }
      NotNull := true
      Comment := comment }
  let GoType := baseType
  let IsArray := colDef.Type_.Array
  let GoType := if colDef.NotNull = false then "*" ++ GoType else GoType
  let GoBaseType := GoType
  let GoType := if colDef.Type_.Array = true then "[]" ++ GoType else GoType
  let Format := colDef.Type_.Format
  { colDef with GoType := GoType, IsArray := IsArray, GoBaseType := GoBaseType, Format := Format }

/-- The loop `for code, _vv := range v.Responses` over the responses still to
visit, `acc` being `o.Responses` so far; `none` is the nil dereference of
`content.Schema`. -/
def responsesLoop (lib : Lib) :
    List (String × Response) → List (String × TypeDef) → Option (List (String × TypeDef))
  | [], acc => some acc
  | (code, _vv) :: rest, acc =>
    match lib.ContentGet _vv.Content "application/json" with
    | none => responsesLoop lib rest acc
    | some content =>
      match content.Schema with
      | none => none
      | some schema =>
        responsesLoop lib rest (mapSet acc code (responseTypeDef schema _vv.Description))

/-- The body of `for verb, v := range ops` for a declared operation. -/
def operationTable (lib : Lib) (k verb : String) (v : Operation) : Option Table :=
  let GoName := lib.ForceCamelIdentifier v.OperationID
  let Key := GoName
  let NameDbSingular := lib.CamelToSnakeIdentifier GoName
  let Name := plural lib NameDbSingular
  let GoVarName := lowerCamel lib (lib.Singular GoName)
  let GoNames := plural lib GoName
  let GoVarNames := lowerCamel lib (plural lib GoVarName)
  let GoShortName := shortName lib GoName
  let o : Table :=
    { Kind := "path", GoName := GoName, Key := Key, NameDbSingular := NameDbSingular,
      Name := Name, GoVarName := GoVarName, GoNames := GoNames, GoVarNames := GoVarNames,
      GoShortName := GoShortName, Path := k, Verb := verb }
  match parameterColumns lib v.Parameters with
  | none => none
  | some Columns =>
    match responsesLoop lib v.Responses [] with
    | none => none
    | some Responses => some { o with Columns := Columns, Responses := Responses }

/-- The map literal `ops` of one path item. -/
def ops (_v : PathItem) : List (String × Option Operation) :=
  [("get", _v.Get), ("post", _v.Post), ("delete", _v.Delete), ("patch", _v.Patch),
   ("put", _v.Put)]

/-- The loop `for verb, v := range ops`, `verbs` being the order in which
`range` enumerates the keys of `ops`; a nil operation is skipped. -/
def operationTables (lib : Lib) (k : String) (_v : PathItem) : List String → Option (List Table)
  | [] => some []
  | verb :: rest =>
    match mapGet (ops _v) verb with
    | none => operationTables lib k _v rest
    | some none => operationTables lib k _v rest
    | some (some v) =>
      match operationTable lib k verb v with
      | none => none
      | some o =>
        match operationTables lib k _v rest with
        | none => none
        | some tables => some (o :: tables)

/-- The loop `for k, _v := range paths`; `order k` is the order in which the
verbs of path `k` are enumerated. -/
def pathTables (lib : Lib) (order : String → List String) :
    List (String × PathItem) → Option (List Table)
  | [] => some []
  | (k, _v) :: rest =>
    match operationTables lib k _v (order k) with
    | none => none
    | some here =>
      match pathTables lib order rest with
      | none => none
      | some tables => some (here ++ tables)

/-- The map `meta`. -/
structure Meta where
  info : Option Info
  servers : Option (List String)
deriving DecidableEq

/-- Function `parseDDL` on the loaded document: the tables in the order built and the
metadata. -/
def parseDDL (lib : Lib) (order : String → List String) (doc : T) :
    Option (List Table × Meta) :=
  let meta_ : Meta := { info := doc.Info, servers := doc.Servers }
  let tables := doc.Schemas.map (fun p => schemaTable lib p.1 p.2)
  match pathTables lib order doc.Paths with
  | none => none
  | some more => some (tables ++ more, meta_)

/-- Insertion of `x` in front of the first element not less than it. -/
def insertStable {α : Type} (less : α → α → Bool) (x : α) : List α → List α
  | [] => [x]
  | y :: ys => if less y x then y :: insertStable less x ys else x :: y :: ys

/-- Go `sort.SliceStable(x, less)`: a stable sort by `less`. -/
def sliceStable {α : Type} (less : α → α → Bool) : List α → List α
  | [] => []
  | x :: xs => insertStable less x (sliceStable less xs)

structure FileContent where
  FileKind : String
  SrcKind : String
  Data : List Table
  Meta : Meta
deriving DecidableEq

/-- Function `process` up to the value handed to `json.MarshalIndent`. -/
def process (lib : Lib) (order : String → List String) (doc : T) : Option FileContent :=
  match parseDDL lib order doc with
  | none => none
  | some (parsed, meta_) =>
    let parsed := sliceStable (fun a b => stringLess a.Key b.Key) parsed
    some { FileKind := "openapi", SrcKind := "openapi", Data := parsed, Meta := meta_ }

/-- The file `process` writes the envelope to, `schemaFile` and `out` being the
flags `-schema` and `-o`; `none` is standard output. -/
def outFile (schemaFile out : String) : Option String :=
  if out = "-" then none
  else
    let outFile := out
    let outFile := if outFile = "" then stringsReplace1 schemaFile ".sql" ".json" else outFile
    some outFile

/-- The envelope as `json.MarshalIndent` renders it: every table through
`Table.MarshalJSON`. -/
def FileContent.emitted (lib : Lib) (fileContent : FileContent) : FileContent :=
  { fileContent with Data := fileContent.Data.map (Table.MarshalJSON lib) }

/-- The JSON key of a column, lines 70 and 76-79 of `ColumnDef.MarshalJSON`, as
a function of the raw key. -/
def jsonKey (lib : Lib) (rawKey : String) : String :=
  let NameJson := lib.ToLowerCamel rawKey
  let NameJson :=
    if NameJson ≠ "id" ∧ hasSuffix NameJson "id" = true then dropRight NameJson 2 ++ "Id"
    else NameJson
  NameJson

/-! ## Specification predicates and instances for the concrete evaluations -/

/-- Every pointer `parseDDL` dereferences in the operation is set: each
parameter has a schema and each JSON body has one. -/
def SchemasPresent (lib : Lib) (v : Operation) : Prop :=
  (∀ vv ∈ v.Parameters, vv.Schema.isSome = true) ∧
  ∀ p ∈ v.Responses, ∀ content,
    lib.ContentGet p.2.Content "application/json" = some content → content.Schema.isSome = true

/-- The declared operations of a path item. -/
def declaredOperations (_v : PathItem) : List Operation :=
  [_v.Get, _v.Post, _v.Delete, _v.Patch, _v.Put].filterMap id

/-- The operation identifiers of the document's paths. -/
def pathOperationIDs : List (String × PathItem) → List String
  | [] => []
  | (_, _v) :: rest => (declaredOperations _v).map Operation.OperationID ++ pathOperationIDs rest

/-- The string `seg` is the part of `ref` after its last `/`: all of `ref` when `ref` has
no `/`. -/
def AfterLastSlash (ref seg : String) : Prop :=
  '/' ∉ seg.data ∧ (ref = seg ∨ ∃ front : String, ref = front ++ "/" ++ seg)

/-- A library instance for the concrete evaluations: the naming functions leave
their argument as it is, `Content.Get` is the lookup of the exact media type. -/
def plainLib : Lib where
  ForceCamelIdentifier := fun s => s
  CamelToSnakeIdentifier := fun s => s
  Plural := fun s => s
  Singular := fun s => s
  ToLowerCamel := fun s => s
  ToLowerCase := fun c => c
  ContentGet := fun content mime => mapGet content mime

/-- A library instance whose `Content.Get` is the lookup of kin-openapi, with
its fallbacks. -/
def kinLib : Lib :=
  { plainLib with ContentGet := contentGet }

/-- A library instance whose case table lowers `É` to `é` and leaves the other
runes above ASCII as they are. -/
def latinLib : Lib :=
  { plainLib with ToLowerCase := fun c => if c = 'É' then 'é' else c }

/-- An enumeration order of the verb map. -/
def verbOrder : String → List String := fun _ => ["get", "post", "delete", "patch", "put"]

/-- A schema node of declared type `ty`, with nothing else. -/
def plainSchema (ty : String) : SchemaRef := SchemaRef.mk "" (Schema.mk ty "" "" [] none [])

/-- An object schema with the properties `props`, of which `required` are
required. -/
def objectSchema (required : List String) (props : List (String × SchemaRef)) : SchemaRef :=
  SchemaRef.mk "" (Schema.mk "object" "" "" required none props)

/-- An operation whose response 200 declares a body only under `*/*`, whose
response 201 declares one only under `application/json; charset=utf-8`, and
whose response 202 declares one under `application/json`. -/
def mixedMediaTypes : Operation where
  OperationID := "GetReport"
  Parameters := []
  Responses :=
    [("200", { Description := none,
               Content := [("*/*", { Schema := some (plainSchema "string") })] }),
     ("201", { Description := none,
               Content := [("application/json; charset=utf-8",
                 { Schema := some (plainSchema "string") })] }),
     ("202", { Description := none,
               Content := [("application/json", { Schema := some (plainSchema "integer") })] })]

/-- The operation `ListOrders`: one optional query parameter, a JSON array of
`Order` for the code 200, no body for the code 204. -/
def listOrders : Operation where
  OperationID := "ListOrders"
  Parameters :=
    [{ Name := "limit", In := "query", Description := "", Required := false,
       Schema := some (plainSchema "integer") }]
  Responses :=
    [("200",
      { Description := some "the orders",
        Content :=
          [("application/json",
            { Schema := some (SchemaRef.mk "" (Schema.mk "array" "" "" []
                (some (SchemaRef.mk "#/components/schemas/Order"
                  (Schema.mk "object" "" "" [] none []))) [])) })] }),
     ("204", { Description := none, Content := [] })]

/-- A document with the one schema `Pet`, whose property map is enumerated in
the order of `props`. -/
def petDoc (props : List (String × SchemaRef)) : T where
  Info := none
  Servers := none
  Schemas := [("Pet", objectSchema ["id"] props)]
  Paths := []

/-- A document whose one schema and whose one operation are both named `Pet`. -/
def petPetDoc : T where
  Info := none
  Servers := none
  Schemas := [("Pet", objectSchema [] [])]
  Paths :=
    [("/pet", { Get := some { OperationID := "Pet", Parameters := [], Responses := [] },
                Post := none, Delete := none, Patch := none, Put := none })]

/-- The path parameter `userId`, a required string. -/
def userIdParameter : Parameter where
  Name := "userId"
  In := "path"
  Description := ""
  Required := true
  Schema := some (plainSchema "string")

/-- The query parameter `ids`, an array of integers. -/
def idsParameter : Parameter where
  Name := "ids"
  In := "query"
  Description := ""
  Required := true
  Schema := some (SchemaRef.mk "" (Schema.mk "array" "" "" [] (some (plainSchema "integer")) []))

/-- A document with the one schema `Cart`, whose property `lines` is an array of
objects declared in place, the item having no `$ref`. -/
def cartDoc : T where
  Info := none
  Servers := none
  Schemas :=
    [("Cart", objectSchema []
      [("lines", SchemaRef.mk "" (Schema.mk "array" "" "" []
        (some (SchemaRef.mk "" (Schema.mk "object" "" "" [] none
          [("sku", plainSchema "string")]))) []))])]
  Paths := []

/-- A property without declared type and with the item schema `string`. -/
def untypedItems : SchemaRef :=
  SchemaRef.mk "" (Schema.mk "" "" "" [] (some (plainSchema "string")) [])

/-- The document of the end-to-end example: the schemas `Order` and `Item` and
the path `/orders` with the operation `ListOrders`. -/
def orderDoc : T where
  Info := some { Title := "Orders", Description := "", Version := "1.0" }
  Servers := some ["https://example.com"]
  Schemas :=
    [("Order", objectSchema ["id"] [("id", plainSchema "integer"),
        ("items", SchemaRef.mk "" (Schema.mk "array" "" "" []
          (some (SchemaRef.mk "#/components/schemas/Item"
            (Schema.mk "object" "" "" [] none []))) []))]),
     ("Item", objectSchema [] [("name", plainSchema "string")])]
  Paths :=
    [("/orders", { Get := some listOrders, Post := none, Delete := none, Patch := none,
                   Put := none })]

/-! ## Lemmas on the string functions -/

theorem splitChars_ne_nil (sep : Char) (cs : List Char) : splitChars sep cs ≠ [] := by
  cases cs with
  | nil => simp [splitChars]
  | cons c cs =>
    simp only [splitChars]
    split
    · simp
    · split <;> simp

theorem splitChars_of_not_mem (sep : Char) (cs : List Char) (h : sep ∉ cs) :
    splitChars sep cs = [cs] := by
  induction cs with
  | nil => rfl
  | cons c cs ih =>
    have hc : c ≠ sep := fun e => h (by simp [e])
    have hcs : sep ∉ cs := fun e => h (by simp [e])
    simp [splitChars, hc, ih hcs]

theorem splitChars_length (sep : Char) (cs : List Char) :
    (splitChars sep cs).length = cs.count sep + 1 := by
  induction cs with
  | nil => rfl
  | cons c cs ih =>
    by_cases hc : c = sep
    · subst hc; simp [splitChars, ih]
    · have hne : (c == sep) = false := by simpa using hc
      rcases hs : splitChars sep cs with _ | ⟨seg, segs⟩
      · exact absurd hs (splitChars_ne_nil sep cs)
      · rw [hs] at ih
        simp [splitChars, hc, hs, List.count_cons, hne, ← ih]

theorem splitChars_cons_getLastD (sep c : Char) (cs : List Char) (h : c ≠ sep) (d : List Char) :
    (splitChars sep (c :: cs)).getLastD d =
      match splitChars sep cs with
      | [_] => c :: (splitChars sep cs).getLastD d
      | _ => (splitChars sep cs).getLastD d := by
  simp only [splitChars, h, if_false]
  rcases hs : splitChars sep cs with _ | ⟨seg, _ | ⟨seg2, segs⟩⟩
  · exact absurd hs (splitChars_ne_nil sep cs)
  · simp
  · simp [List.getLastD]

theorem splitChars_append_getLastD (sep : Char) (a b d : List Char) :
    (splitChars sep (a ++ sep :: b)).getLastD d = (splitChars sep b).getLastD d := by
  induction a with
  | nil =>
    have hb := splitChars_ne_nil sep b
    rcases hs : splitChars sep b with _ | ⟨seg, segs⟩
    · exact absurd hs hb
    · simp [splitChars, hs, List.getLastD]
  | cons c a ih =>
    by_cases hc : c = sep
    · subst hc
      have hb := splitChars_ne_nil c (a ++ c :: b)
      rcases hs : splitChars c (a ++ c :: b) with _ | ⟨seg, segs⟩
      · exact absurd hs hb
      · rw [← ih, hs]; simp [splitChars, hs, List.getLastD]
    · rw [List.cons_append, splitChars_cons_getLastD sep c _ hc]
      rcases hs : splitChars sep (a ++ sep :: b) with _ | ⟨seg, _ | ⟨seg2, segs⟩⟩
      · exact absurd hs (splitChars_ne_nil sep _)
      · exfalso
        have hl := splitChars_length sep (a ++ sep :: b)
        rw [hs] at hl
        simp [List.count_append, List.count_cons] at hl
      · simp only [← ih, hs]

theorem getLastD_map_mk (l : List (List Char)) :
    (l.map String.mk).getLastD "" = String.mk (l.getLastD []) := by
  induction l with
  | nil => rfl
  | cons a l ih =>
    cases l with
    | nil => rfl
    | cons b l => simpa [List.getLastD] using ih

theorem lastSegment_eq (ref : String) :
    lastSegment ref = String.mk ((splitChars '/' ref.data).getLastD []) := by
  simp [lastSegment, lastOf, stringsSplit, getLastD_map_mk]

/-- Function `lastSegment` returns the part after the last `/`. -/
theorem lastSegment_of_afterLastSlash (ref seg : String) (h : AfterLastSlash ref seg) :
    lastSegment ref = seg := by
  obtain ⟨hseg, h | ⟨front, h⟩⟩ := h
  · subst h
    rw [lastSegment_eq, splitChars_of_not_mem _ _ hseg]
    rfl
  · subst h
    rw [lastSegment_eq]
    have : (front ++ "/" ++ seg).data = front.data ++ '/' :: seg.data := by
      simp [String.data_append]
    rw [this, splitChars_append_getLastD, splitChars_of_not_mem _ _ hseg]
    rfl

/-- The part after the last `/` exists: `lastSegment` is it. -/
theorem afterLastSlash_lastSegment (ref : String) : AfterLastSlash ref (lastSegment ref) := by
  rw [lastSegment_eq]
  by_cases h : '/' ∈ ref.data
  · have hr : '/' ∈ ref.data.reverse := by simpa using h
    obtain ⟨s, t, hst, hs⟩ := List.eq_append_cons_of_mem hr
    have hd : ref.data = t.reverse ++ '/' :: s.reverse := by
      have := congrArg List.reverse hst
      simpa using this
    have hs' : '/' ∉ s.reverse := by simpa using hs
    rw [hd, splitChars_append_getLastD, splitChars_of_not_mem _ _ hs']
    refine ⟨hs', Or.inr ⟨String.mk t.reverse, ?_⟩⟩
    apply String.ext
    simp [String.data_append, hd]
  · rw [splitChars_of_not_mem _ _ h]
    exact ⟨h, Or.inl rfl⟩

/-! ## Lemmas on the order of strings and on the stable sort -/

theorem ltChars_iff (as : List Char) : ∀ bs, ltChars as bs = true ↔ as < bs := by
  induction as with
  | nil =>
    intro bs
    cases bs with
    | nil => simp [ltChars]
    | cons b bs => simp only [ltChars, true_iff]; exact List.Lex.nil
  | cons a as ih =>
    intro bs
    cases bs with
    | nil => simp [ltChars]
    | cons b bs =>
      simp only [ltChars]
      rcases lt_trichotomy a b with h | h | h
      · simp only [h, if_true, true_iff]
        exact List.Lex.rel h
      · subst h
        simp only [lt_irrefl, if_false, ih bs]
        constructor
        · exact List.Lex.cons
        · intro h
          cases h with
          | cons h => exact h
          | rel h => exact absurd h (lt_irrefl _)
      · have hab : ¬ a < b := not_lt_of_gt h
        simp only [hab, h, if_false, if_true]
        constructor
        · intro h0; exact absurd h0 (by simp)
        · intro h0
          cases h0 with
          | cons h0 => exact absurd h (lt_irrefl _)
          | rel h0 => exact absurd h0 hab

/-- Function `stringLess` is the strict lexicographic order of strings. -/
theorem stringLess_iff (a b : String) : stringLess a b = true ↔ a < b := by
  rw [String.lt_iff_toList_lt]; exact ltChars_iff _ _

theorem insertStable_perm {α : Type} (less : α → α → Bool) (x : α) (l : List α) :
    (insertStable less x l).Perm (x :: l) := by
  induction l with
  | nil => exact List.Perm.refl _
  | cons y ys ih =>
    simp only [insertStable]
    split
    · exact (List.Perm.cons y ih).trans (List.Perm.swap x y ys)
    · exact List.Perm.refl _

theorem sliceStable_perm {α : Type} (less : α → α → Bool) (l : List α) :
    (sliceStable less l).Perm l := by
  induction l with
  | nil => exact List.Perm.refl _
  | cons x xs ih =>
    exact (insertStable_perm less x _).trans (List.Perm.cons x ih)

theorem insertStable_sorted {α : Type} (key : α → String) (x : α) (l : List α)
    (h : l.Pairwise (fun a b => key a ≤ key b)) :
    (insertStable (fun a b => stringLess (key a) (key b)) x l).Pairwise
      (fun a b => key a ≤ key b) := by
  induction l with
  | nil => simp [insertStable]
  | cons y ys ih =>
    rw [List.pairwise_cons] at h
    simp only [insertStable]
    split
    · rename_i hlt
      have hyx : key y < key x := (stringLess_iff _ _).1 hlt
      rw [List.pairwise_cons]
      refine ⟨fun z hz => ?_, ih h.2⟩
      rcases List.mem_cons.1 ((insertStable_perm _ x ys).mem_iff.1 hz) with e | hz
      · subst e; exact le_of_lt hyx
      · exact h.1 z hz
    · rename_i hlt
      have hxy : key x ≤ key y := not_lt.1 (fun hc => hlt ((stringLess_iff _ _).2 hc))
      rw [List.pairwise_cons]
      refine ⟨fun z hz => ?_, List.pairwise_cons.2 h⟩
      rcases List.mem_cons.1 hz with e | hz
      · subst e; exact hxy
      · exact le_trans hxy (h.1 z hz)

theorem sliceStable_sorted {α : Type} (key : α → String) (l : List α) :
    (sliceStable (fun a b => stringLess (key a) (key b)) l).Pairwise
      (fun a b => key a ≤ key b) := by
  induction l with
  | nil => exact List.Pairwise.nil
  | cons x xs ih => exact insertStable_sorted key x _ ih

theorem insertStable_filter {α : Type} (key : α → String) (k : String) (x : α) (l : List α) :
    (insertStable (fun a b => stringLess (key a) (key b)) x l).filter
        (fun a => decide (key a = k)) =
      (x :: l).filter (fun a => decide (key a = k)) := by
  induction l with
  | nil => rfl
  | cons y ys ih =>
    simp only [insertStable]
    split
    · rename_i hlt
      have hyx : key y < key x := (stringLess_iff _ _).1 hlt
      have hne : key y ≠ key x := ne_of_lt hyx
      rw [List.filter_cons, ih]
      by_cases hy : key y = k
      · have hx : ¬ key x = k := fun e => hne (hy.trans e.symm)
        simp [List.filter_cons, hy, hx]
      · simp [List.filter_cons, hy]
    · rfl

/-- The stable sort keeps, for every key, the elements of that key in their
order. -/
theorem sliceStable_filter {α : Type} (key : α → String) (k : String) (l : List α) :
    (sliceStable (fun a b => stringLess (key a) (key b)) l).filter
        (fun a => decide (key a = k)) =
      l.filter (fun a => decide (key a = k)) := by
  induction l with
  | nil => rfl
  | cons x xs ih =>
    simp only [sliceStable]
    rw [insertStable_filter, List.filter_cons, List.filter_cons, ih]

theorem table_marshalJSON_key (lib : Lib) (x : Table) : (Table.MarshalJSON lib x).Key = x.Key :=
  rfl

/-! ## Lemmas on the columns -/

theorem stringSliceContains_iff (in_ : List String) (s : String) :
    stringSliceContains in_ s = true ↔ s ∈ in_ := by
  induction in_ with
  | nil => simp [stringSliceContains]
  | cons x rest ih =>
    by_cases h : x = s
    · simp [stringSliceContains, h]
    · have h' : ¬ s = x := fun e => h e.symm
      simp [stringSliceContains, h, h', ih]

theorem propertyColumn_type (lib : Lib) (Required : List String) (kk : String)
    (_vv : SchemaRef) :
    (propertyColumn lib Required kk _vv).Type_ =
      { Base := resolveBase _vv, Array := decide (_vv.Value.Type_ = "array"),
        Format := resolveFormat _vv } := by
  rfl

theorem propertyColumn_notNull (lib : Lib) (Required : List String) (kk : String)
    (_vv : SchemaRef) :
    (propertyColumn lib Required kk _vv).NotNull = stringSliceContains Required kk := by
  rfl

theorem propertyColumn_goBaseType (lib : Lib) (Required : List String) (kk : String)
    (_vv : SchemaRef) :
    (propertyColumn lib Required kk _vv).GoBaseType =
      (if stringSliceContains Required kk = true then "" else "*") ++ resolveBase _vv := by
  simp only [propertyColumn]
  cases stringSliceContains Required kk <;> simp

theorem propertyColumn_goType (lib : Lib) (Required : List String) (kk : String)
    (_vv : SchemaRef) :
    (propertyColumn lib Required kk _vv).GoType =
      (if _vv.Value.Type_ = "array" then "[]" else "") ++
        ((if stringSliceContains Required kk = true then "" else "*") ++ resolveBase _vv) := by
  simp only [propertyColumn]
  by_cases h : _vv.Value.Type_ = "array" <;>
    cases stringSliceContains Required kk <;> simp [h]

theorem columnDef_marshalJSON_goBaseType (lib : Lib) (x : ColumnDef) :
    (ColumnDef.MarshalJSON lib x).GoBaseType =
      (if x.NotNull = true then "" else "*") ++ x.Type_.Base := by
  simp only [ColumnDef.MarshalJSON]
  cases x.NotNull <;> simp

theorem columnDef_marshalJSON_goType (lib : Lib) (x : ColumnDef) :
    (ColumnDef.MarshalJSON lib x).GoType =
      (if x.Type_.Array = true then "[]" else "") ++
        ((if x.NotNull = true then "" else "*") ++ x.Type_.Base) := by
  simp only [ColumnDef.MarshalJSON]
  cases x.NotNull <;> cases x.Type_.Array <;> simp

/-! ## Lemmas on the response map -/

theorem mapGet_mapSet {β : Type} (m : List (String × β)) (k k' : String) (v : β) :
    mapGet (mapSet m k v) k' = if k = k' then some v else mapGet m k' := by
  induction m with
  | nil => simp [mapSet, mapGet]
  | cons p rest ih =>
    obtain ⟨k0, v0⟩ := p
    by_cases h0 : k0 = k
    · subst h0
      by_cases h1 : k0 = k' <;> simp [mapSet, mapGet, h1]
    · by_cases h1 : k0 = k'
      · subst h1
        have : ¬ k = k0 := fun e => h0 e.symm
        simp [mapSet, mapGet, h0, this]
      · simp [mapSet, mapGet, h0, h1, ih]

theorem responseTypeDef_notNull (schema : SchemaRef) (d : Option String) :
    (responseTypeDef schema d).NotNull = true := rfl

theorem responseTypeDef_type (schema : SchemaRef) (d : Option String) :
    (responseTypeDef schema d).Type_ =
      { Base := resolveBase schema, Array := decide (schema.Value.Type_ = "array"),
        Format := resolveFormat schema } := rfl

theorem responseTypeDef_goType (schema : SchemaRef) (d : Option String) :
    (responseTypeDef schema d).GoType =
      (if schema.Value.Type_ = "array" then "[]" else "") ++ resolveBase schema := by
  simp only [responseTypeDef]
  by_cases h : schema.Value.Type_ = "array" <;> simp [h]

theorem responseTypeDef_goBaseType (schema : SchemaRef) (d : Option String) :
    (responseTypeDef schema d).GoBaseType = resolveBase schema := by
  simp [responseTypeDef]

theorem typeDef_marshalJSON_goType (x : TypeDef) :
    (TypeDef.MarshalJSON x).GoType =
      (if x.Type_.Array = true then "[]" else "") ++
        ((if x.NotNull = true then "" else "*") ++ x.Type_.Base) := by
  simp only [TypeDef.MarshalJSON]
  cases x.NotNull <;> cases x.Type_.Array <;> simp

theorem typeDef_marshalJSON_goBaseType (x : TypeDef) :
    (TypeDef.MarshalJSON x).GoBaseType = (if x.NotNull = true then "" else "*") ++ x.Type_.Base := by
  simp only [TypeDef.MarshalJSON]
  cases x.NotNull <;> simp

/-- An entry of the map the loop returns was in the map before the loop or was
built from a response, with a JSON body, of the code. -/
theorem responsesLoop_sound (lib : Lib) (rs : List (String × Response)) :
    ∀ (acc out : List (String × TypeDef)), responsesLoop lib rs acc = some out →
      ∀ code td, mapGet out code = some td →
        mapGet acc code = some td ∨
        ∃ r content schema, (code, r) ∈ rs ∧
          lib.ContentGet r.Content "application/json" = some content ∧
          content.Schema = some schema ∧ td = responseTypeDef schema r.Description := by
  induction rs with
  | nil =>
    intro acc out h code td hg
    simp only [responsesLoop, Option.some.injEq] at h
    subst h
    exact Or.inl hg
  | cons p rest ih =>
    obtain ⟨c, r⟩ := p
    intro acc out h code td hg
    simp only [responsesLoop] at h
    split at h
    · rcases ih acc out h code td hg with h1 | ⟨r', content, schema, hm, h2, h3, h4⟩
      · exact Or.inl h1
      · exact Or.inr ⟨r', content, schema, List.mem_cons_of_mem _ hm, h2, h3, h4⟩
    · rename_i content hc
      split at h
      · exact absurd h (by simp)
      · rename_i schema hs
        rcases ih _ out h code td hg with h1 | ⟨r', content', schema', hm, h2, h3, h4⟩
        · rw [mapGet_mapSet] at h1
          split at h1
          · rename_i hcode
            subst hcode
            refine Or.inr ⟨r, content, schema, List.mem_cons_self _ _, hc, hs, ?_⟩
            simpa using h1.symm
          · exact Or.inl h1
        · exact Or.inr ⟨r', content', schema', List.mem_cons_of_mem _ hm, h2, h3, h4⟩

/-- A code that was in the map before the loop, or whose response has a JSON
body, is in the map the loop returns. -/
theorem responsesLoop_complete (lib : Lib) (rs : List (String × Response)) :
    ∀ (acc out : List (String × TypeDef)), responsesLoop lib rs acc = some out →
      ∀ code, ((mapGet acc code).isSome = true ∨
          ∃ r, (code, r) ∈ rs ∧ (lib.ContentGet r.Content "application/json").isSome = true) →
        (mapGet out code).isSome = true := by
  induction rs with
  | nil =>
    intro acc out h code hc
    simp only [responsesLoop, Option.some.injEq] at h
    subst h
    rcases hc with hc | ⟨r, hm, _⟩
    · exact hc
    · simp at hm
  | cons p rest ih =>
    obtain ⟨c, r⟩ := p
    intro acc out h code hc
    simp only [responsesLoop] at h
    split at h
    · rename_i hnone
      apply ih acc out h code
      rcases hc with hc | ⟨r', hm, hj⟩
      · exact Or.inl hc
      · rcases List.mem_cons.1 hm with he | hm
        · simp only [Prod.mk.injEq] at he
          obtain ⟨_, rfl⟩ := he
          rw [hnone] at hj
          simp at hj
        · exact Or.inr ⟨r', hm, hj⟩
    · rename_i content hcont
      split at h
      · exact absurd h (by simp)
      · rename_i schema hs
        apply ih _ out h code
        rcases hc with hc | ⟨r', hm, hj⟩
        · left
          rw [mapGet_mapSet]
          split
          · rfl
          · exact hc
        · rcases List.mem_cons.1 hm with he | hm
          · simp only [Prod.mk.injEq] at he
            obtain ⟨rfl, rfl⟩ := he
            left
            rw [mapGet_mapSet]
            simp
          · exact Or.inr ⟨r', hm, hj⟩

/-- The loop returns a map when every JSON body it meets has a schema. -/
theorem responsesLoop_isSome (lib : Lib) (rs : List (String × Response))
    (h : ∀ p ∈ rs, ∀ content, lib.ContentGet p.2.Content "application/json" = some content →
      content.Schema.isSome = true) :
    ∀ acc, (responsesLoop lib rs acc).isSome = true := by
  induction rs with
  | nil => intro acc; rfl
  | cons p rest ih =>
    obtain ⟨c, r⟩ := p
    intro acc
    have ih' := ih (fun q hq => h q (List.mem_cons_of_mem _ hq))
    simp only [responsesLoop]
    split
    · exact ih' acc
    · rename_i content hcont
      have hs := h (c, r) (List.mem_cons_self _ _) content hcont
      split
      · rename_i hnone
        rw [hnone] at hs
        simp at hs
      · exact ih' _

theorem operationTable_responses (lib : Lib) (k verb : String) (v : Operation) (o : Table)
    (h : operationTable lib k verb v = some o) :
    responsesLoop lib v.Responses [] = some o.Responses := by
  simp only [operationTable] at h
  split at h
  · exact absurd h (by simp)
  · split at h
    · exact absurd h (by simp)
    · rename_i responses hr
      simp only [Option.some.injEq] at h
      subst h
      exact hr

/-! ## Lemmas on the keys of the tables -/

theorem operationTable_key (lib : Lib) (k verb : String) (v : Operation) (o : Table)
    (h : operationTable lib k verb v = some o) :
    o.Key = lib.ForceCamelIdentifier v.OperationID := by
  simp only [operationTable] at h
  split at h
  · exact absurd h (by simp)
  · split at h
    · exact absurd h (by simp)
    · simp only [Option.some.injEq] at h
      subst h
      rfl

theorem operationTables_keys (lib : Lib) (k : String) (_v : PathItem) (verbs : List String) :
    ∀ ts, operationTables lib k _v verbs = some ts →
      ts.map Table.Key =
        (verbs.filterMap (fun verb => (mapGet (ops _v) verb).join)).map
          (fun v => lib.ForceCamelIdentifier v.OperationID) := by
  induction verbs with
  | nil =>
    intro ts h
    simp only [operationTables, Option.some.injEq] at h
    subst h
    rfl
  | cons verb rest ih =>
    intro ts h
    simp only [operationTables] at h
    split at h
    · rename_i hg
      simp [List.filterMap_cons, hg, ih ts h]
    · rename_i hg
      simp [List.filterMap_cons, hg, ih ts h]
    · rename_i v hg
      split at h
      · exact absurd h (by simp)
      · rename_i o ho
        split at h
        · exact absurd h (by simp)
        · rename_i tables ht
          simp only [Option.some.injEq] at h
          subst h
          simp [List.filterMap_cons, hg, ih tables ht, operationTable_key lib k verb v o ho]

theorem filterMap_ops (_v : PathItem) :
    ["get", "post", "delete", "patch", "put"].filterMap
      (fun verb => (mapGet (ops _v) verb).join) = declaredOperations _v := by
  have e1 : mapGet (ops _v) "get" = some _v.Get := by simp [ops, mapGet]
  have e2 : mapGet (ops _v) "post" = some _v.Post := by simp [ops, mapGet]
  have e3 : mapGet (ops _v) "delete" = some _v.Delete := by simp [ops, mapGet]
  have e4 : mapGet (ops _v) "patch" = some _v.Patch := by simp [ops, mapGet]
  have e5 : mapGet (ops _v) "put" = some _v.Put := by simp [ops, mapGet]
  simp only [declaredOperations, List.filterMap_cons, List.filterMap_nil, e1, e2, e3, e4, e5,
    Option.join, Option.some_bind, id]

theorem pathTables_keys (lib : Lib) (order : String → List String)
    (hord : ∀ k, (order k).Perm ["get", "post", "delete", "patch", "put"])
    (paths : List (String × PathItem)) :
    ∀ ts, pathTables lib order paths = some ts →
      (ts.map Table.Key).Perm ((pathOperationIDs paths).map lib.ForceCamelIdentifier) := by
  induction paths with
  | nil =>
    intro ts h
    simp only [pathTables, Option.some.injEq] at h
    subst h
    exact List.Perm.refl _
  | cons p rest ih =>
    obtain ⟨k, _v⟩ := p
    intro ts h
    simp only [pathTables] at h
    split at h
    · exact absurd h (by simp)
    · rename_i here hh
      split at h
      · exact absurd h (by simp)
      · rename_i tables ht
        simp only [Option.some.injEq] at h
        subst h
        have h1 := operationTables_keys lib k _v (order k) here hh
        have h2 : (List.filterMap (fun verb => (mapGet (ops _v) verb).join) (order k)).Perm
            (declaredOperations _v) := by
          rw [← filterMap_ops]
          exact (hord k).filterMap _
        simp only [List.map_append, pathOperationIDs, List.map_map]
        refine List.Perm.append ?_ (ih tables ht)
        rw [h1]
        exact h2.map _

/-- The keys of the built tables are, up to the order of the verbs, the
PascalCase identifiers of the schema names followed by those of the
operation identifiers. -/
theorem parseDDL_keys (lib : Lib) (order : String → List String)
    (hord : ∀ k, (order k).Perm ["get", "post", "delete", "patch", "put"])
    (doc : T) (tables : List Table) (meta_ : Meta)
    (h : parseDDL lib order doc = some (tables, meta_)) :
    (tables.map Table.Key).Perm
      ((doc.Schemas.map Prod.fst ++ pathOperationIDs doc.Paths).map
        lib.ForceCamelIdentifier) := by
  simp only [parseDDL] at h
  split at h
  · exact absurd h (by simp)
  · rename_i more hm
    simp only [Option.some.injEq, Prod.mk.injEq] at h
    obtain ⟨h, _⟩ := h
    subst h
    simp only [List.map_append, List.map_map]
    refine List.Perm.append ?_ (pathTables_keys lib order hord _ more hm)
    exact List.Perm.of_eq (List.map_congr_left (fun p _ => rfl))

theorem columnDef_marshalJSON_key (lib : Lib) (x : ColumnDef) :
    (ColumnDef.MarshalJSON lib x).Key = jsonKey lib x.NameExactJson := rfl

theorem parameterColumn_nameExactJson (lib : Lib) (vv : Parameter) (colDef : ColumnDef)
    (h : parameterColumn lib vv = some colDef) : colDef.NameExactJson = "" := by
  simp only [parameterColumn] at h
  split at h
  · exact absurd h (by simp)
  · simp only [Option.some.injEq] at h
    subst h
    rfl

/-! ## The tables are built when the schemas are present -/

theorem parameterColumns_isSome (lib : Lib) (ps : List Parameter)
    (h : ∀ vv ∈ ps, vv.Schema.isSome = true) : (parameterColumns lib ps).isSome = true := by
  induction ps with
  | nil => rfl
  | cons vv rest ih =>
    have h1 := h vv (List.mem_cons_self _ _)
    have h2 := ih (fun q hq => h q (List.mem_cons_of_mem _ hq))
    obtain ⟨schema, hs⟩ := Option.isSome_iff_exists.1 h1
    obtain ⟨cols, hc⟩ := Option.isSome_iff_exists.1 h2
    simp [parameterColumns, parameterColumn, hs, hc]

theorem operationTable_isSome (lib : Lib) (k verb : String) (v : Operation)
    (h : SchemasPresent lib v) : (operationTable lib k verb v).isSome = true := by
  obtain ⟨cols, hc⟩ := Option.isSome_iff_exists.1 (parameterColumns_isSome lib _ h.1)
  obtain ⟨rs, hr⟩ := Option.isSome_iff_exists.1 (responsesLoop_isSome lib _ h.2 [])
  simp [operationTable, hc, hr]

theorem mem_declaredOperations (_v : PathItem) (verb : String) (v : Operation)
    (h : mapGet (ops _v) verb = some (some v)) : v ∈ declaredOperations _v := by
  simp only [ops, mapGet] at h
  simp only [declaredOperations, List.mem_filterMap, id, List.mem_cons, List.mem_singleton,
    exists_eq_right]
  split at h
  · simp only [Option.some.injEq] at h; simp [h]
  · split at h
    · simp only [Option.some.injEq] at h; simp [h]
    · split at h
      · simp only [Option.some.injEq] at h; simp [h]
      · split at h
        · simp only [Option.some.injEq] at h; simp [h]
        · split at h
          · simp only [Option.some.injEq] at h; simp [h]
          · exact absurd h (by simp)

theorem operationTables_isSome (lib : Lib) (k : String) (_v : PathItem)
    (h : ∀ v ∈ declaredOperations _v, SchemasPresent lib v) (verbs : List String) :
    (operationTables lib k _v verbs).isSome = true := by
  induction verbs with
  | nil => rfl
  | cons verb rest ih =>
    simp only [operationTables]
    split
    · exact ih
    · exact ih
    · rename_i v hg
      obtain ⟨o, ho⟩ := Option.isSome_iff_exists.1
        (operationTable_isSome lib k verb v (h v (mem_declaredOperations _v verb v hg)))
      obtain ⟨ts, hts⟩ := Option.isSome_iff_exists.1 ih
      simp [ho, hts]

theorem pathTables_isSome (lib : Lib) (order : String → List String)
    (paths : List (String × PathItem))
    (h : ∀ p ∈ paths, ∀ v ∈ declaredOperations p.2, SchemasPresent lib v) :
    (pathTables lib order paths).isSome = true := by
  induction paths with
  | nil => rfl
  | cons p rest ih =>
    obtain ⟨k, _v⟩ := p
    obtain ⟨here, hh⟩ := Option.isSome_iff_exists.1
      (operationTables_isSome lib k _v (h (k, _v) (List.mem_cons_self _ _)) (order k))
    obtain ⟨ts, hts⟩ := Option.isSome_iff_exists.1
      (ih (fun q hq => h q (List.mem_cons_of_mem _ hq)))
    simp [pathTables, hh, hts]

/-- The function `parseDDL` returns its tables on every document in which each
parameter and each JSON body of a declared operation has a schema. -/
theorem parseDDL_isSome (lib : Lib) (order : String → List String) (doc : T)
    (h : ∀ p ∈ doc.Paths, ∀ v ∈ declaredOperations p.2, SchemasPresent lib v) :
    (parseDDL lib order doc).isSome = true := by
  obtain ⟨ts, hts⟩ := Option.isSome_iff_exists.1 (pathTables_isSome lib order doc.Paths h)
  simp [parseDDL, hts]

/-! ## Lemmas on suffixes, on the case of letters and on `replaceFirst` -/

/-- Function `hasSuffix` holds exactly of the strings that end with the suffix. -/
theorem hasSuffix_iff (s suffix : String) :
    hasSuffix s suffix = true ↔ ∃ front : String, s = front ++ suffix := by
  simp only [hasSuffix, List.isSuffixOf_iff_suffix]
  constructor
  · rintro ⟨t, ht⟩
    exact ⟨String.mk t, String.ext (by simp [String.data_append, ht])⟩
  · rintro ⟨front, rfl⟩
    exact ⟨front.data, by simp [String.data_append]⟩

theorem dropRight_append (front suffix : String) :
    dropRight (front ++ suffix) suffix.data.length = front := by
  apply String.ext
  simp [dropRight, String.data_append]

/-- Two strings that end with two-letter suffixes are equal only when the
suffixes are. -/
theorem suffix_eq_of_append_eq (a b x y : String) (h : a ++ x = b ++ y)
    (hl : x.data.length = y.data.length) : a = b ∧ x = y := by
  have hd := congrArg String.data h
  simp only [String.data_append] at hd
  obtain ⟨h1, h2⟩ := List.append_inj' hd hl
  exact ⟨String.ext h1, String.ext h2⟩

theorem isUpper_iff (c : Char) :
    c.isUpper = true ↔ ('A'.toNat ≤ c.toNat ∧ c.toNat ≤ 'Z'.toNat) := by
  have h1 : 'A'.toNat = 65 := rfl
  have h2 : 'Z'.toNat = 90 := rfl
  rw [h1, h2]
  simp only [Char.isUpper, Bool.and_eq_true, decide_eq_true_eq, ge_iff_le, Char.toNat]
  rw [UInt32.le_def, UInt32.le_def]
  rfl

theorem isUpper_ofNat_add (n : Nat) (h1 : 65 ≤ n) (h2 : n ≤ 90) :
    (Char.ofNat (n + 32)).isUpper = false ∧ (Char.ofNat (n + 32)).toNat ≤ 127 := by
  interval_cases n <;> exact ⟨rfl, by decide⟩

/-- On the letters `A` to `Z`, `unicode.ToLower` is the lower-case letter, and a
character of its result is never one of `A` to `Z`. -/
theorem unicodeToLower_of_upper (T : Char → Char) (c : Char) (h : c.isUpper = true) :
    unicodeToLower T c = c.toLower ∧ (unicodeToLower T c).isUpper = false := by
  have hc := (isUpper_iff c).1 h
  have h1 : 'A'.toNat = 65 := rfl
  have h2 : 'Z'.toNat = 90 := rfl
  rw [h1, h2] at hc
  have e : unicodeToLower T c = Char.ofNat (c.toNat + 32) := by
    have h127 : c.toNat ≤ 127 := by omega
    simp [unicodeToLower, h127, h1, h2, hc]
  refine ⟨?_, ?_⟩
  · rw [e]
    simp [Char.toLower, hc]
  · rw [e]
    exact (isUpper_ofNat_add _ hc.1 hc.2).1

theorem join_singletons (l : List Char) :
    String.join (l.map String.singleton) = String.mk l := by
  have h : ∀ (acc : String),
      List.foldl (fun r s => r ++ s) acc (l.map String.singleton) = acc ++ String.mk l := by
    induction l with
    | nil => intro acc; simp
    | cons c cs ih =>
      intro acc
      simp only [List.map_cons, List.foldl_cons, ih]
      apply String.ext
      simp [String.data_append, String.singleton]
  simpa [String.join] using h ""

theorem filter_upper_eq (l : List Char) :
    l.filter (fun c => decide ('A'.toNat ≤ c.toNat ∧ c.toNat ≤ 'Z'.toNat)) =
      l.filter Char.isUpper := by
  apply List.filter_congr
  intro c _
  by_cases h : c.isUpper = true
  · rw [h, decide_eq_true ((isUpper_iff c).1 h)]
  · have h' : ¬ ('A'.toNat ≤ c.toNat ∧ c.toNat ≤ 'Z'.toNat) := fun hc => h ((isUpper_iff c).2 hc)
    simp only [Bool.not_eq_true] at h
    rw [h, decide_eq_false h']

theorem replaceFirst_of_not_infix (old new_ : List Char) (l : List Char)
    (h : ¬ old <:+: l) : replaceFirst old new_ l = l := by
  induction l with
  | nil => rfl
  | cons c cs ih =>
    simp only [replaceFirst]
    have h1 : ¬ old.isPrefixOf (c :: cs) = true := by
      rw [List.isPrefixOf_iff_prefix]
      exact fun hp => h hp.isInfix
    have h2 : ¬ old <:+: cs := fun hi => h (hi.trans (List.suffix_cons c cs).isInfix)
    rw [if_neg h1, ih h2]

theorem unicodeToLower_idem (T : Char → Char)
    (hT : ∀ r : Char, 127 < r.toNat → unicodeToLower T (T r) = T r) (r : Char) :
    unicodeToLower T (unicodeToLower T r) = unicodeToLower T r := by
  by_cases h127 : r.toNat ≤ 127
  · by_cases hup : 'A'.toNat ≤ r.toNat ∧ r.toNat ≤ 'Z'.toNat
    · have e : unicodeToLower T r = Char.ofNat (r.toNat + 32) := by
        simp only [unicodeToLower, h127, hup, and_self, if_true]
      have h1 : 'A'.toNat = 65 := rfl
      have h2 : 'Z'.toNat = 90 := rfl
      have hb := isUpper_ofNat_add r.toNat (by omega) (by omega)
      have hnot : ¬ ('A'.toNat ≤ (Char.ofNat (r.toNat + 32)).toNat ∧
          (Char.ofNat (r.toNat + 32)).toNat ≤ 'Z'.toNat) := by
        intro hc
        have := (isUpper_iff _).2 hc
        rw [hb.1] at this
        exact absurd this (by decide)
      rw [e]
      simp only [unicodeToLower, hb.2, hnot, if_true, if_false]
    · have e : unicodeToLower T r = r := by
        simp only [unicodeToLower, h127, hup, if_true, if_false]
      rw [e, e]
  · have e : unicodeToLower T r = T r := by
      simp only [unicodeToLower, h127, if_false]
    rw [e]
    exact hT r (by omega)

theorem lowerCamel_data (lib : Lib) (r : Char) (rest : List Char) (s : String)
    (h : s.data = r :: rest) :
    (lowerCamel lib s).data = unicodeToLower lib.ToLowerCase r :: rest := by
  simp [lowerCamel, h, String.data_append, String.singleton]

/-! ## The claims -/

/-- C1: the rendered type of a schema property, as `parseDDL` computes it and as
`ColumnDef.MarshalJSON` recomputes it, is the resolved base, prefixed by `*`
exactly when the property is not required, and after that by `[]` exactly when
the declared type is `array`; the element type is the same without the array
marker.  An array property whose item is an `integer` without format renders
as `[]*int64` with element type `*int64` when it is not required, never as
`*[]int64`. -/
theorem C1_rendered_type_order (lib : Lib) (Required : List String) (kk : String)
    (_vv : SchemaRef) (ref fmt desc iref idesc : String) (req ireq : List String)
    (props iprops : List (String × SchemaRef)) (iitems : Option SchemaRef) :
    (let col := propertyColumn lib Required kk _vv
     let opt := if kk ∈ Required then "" else "*"
     let arr := if _vv.Value.Type_ = "array" then "[]" else ""
     col.Type_.Base = resolveBase _vv ∧
     col.GoBaseType = opt ++ resolveBase _vv ∧
     col.GoType = arr ++ (opt ++ resolveBase _vv) ∧
     (ColumnDef.MarshalJSON lib col).GoBaseType = opt ++ resolveBase _vv ∧
     (ColumnDef.MarshalJSON lib col).GoType = arr ++ (opt ++ resolveBase _vv)) ∧
    (let col := propertyColumn lib Required kk
        (SchemaRef.mk ref (Schema.mk "array" fmt desc req
          (some (SchemaRef.mk iref (Schema.mk "integer" "" idesc ireq iitems iprops))) props))
     col.GoType = (if kk ∈ Required then "[]int64" else "[]*int64") ∧
     col.GoBaseType = (if kk ∈ Required then "int64" else "*int64") ∧
     (ColumnDef.MarshalJSON lib col).GoType = col.GoType ∧
     (ColumnDef.MarshalJSON lib col).GoBaseType = col.GoBaseType ∧
     col.GoType ≠ "*[]int64") := by
  simp only [← stringSliceContains_iff]
  refine ⟨⟨rfl, propertyColumn_goBaseType .., propertyColumn_goType .., ?_, ?_⟩, ?_⟩
  · rw [columnDef_marshalJSON_goBaseType, propertyColumn_notNull, propertyColumn_type]
  · rw [columnDef_marshalJSON_goType, propertyColumn_notNull, propertyColumn_type]
    simp
  · have hb : resolveBase (SchemaRef.mk ref (Schema.mk "array" fmt desc req
          (some (SchemaRef.mk iref (Schema.mk "integer" "" idesc ireq iitems iprops))) props))
        = "int64" := by
      simp [resolveBase, SchemaRef.Value, Schema.Items, Schema.Format, Schema.Type_, translate,
        baseTypes]
    rw [columnDef_marshalJSON_goType, columnDef_marshalJSON_goBaseType, propertyColumn_notNull,
      propertyColumn_type, propertyColumn_goType, propertyColumn_goBaseType, hb]
    cases stringSliceContains Required kk <;>
      simp [SchemaRef.Value, Schema.Type_]

/-- C2: a schema property whose declared type is `array` and that has an item
schema has the array flag set, and its base is the `baseTypes` translation of
the item's format when that is not empty, else of the part of the item's
`$ref` after its last `/` when the item's type is `object`, else of the item's
type. -/
theorem C2_array_item_base (lib : Lib) (Required : List String) (kk ref fmt desc : String)
    (req : List String) (items : SchemaRef) (props : List (String × SchemaRef)) :
    let col := propertyColumn lib Required kk
      (SchemaRef.mk ref (Schema.mk "array" fmt desc req (some items) props))
    col.Type_.Array = true ∧ col.IsArray = true ∧
    (ColumnDef.MarshalJSON lib col).IsArray = true ∧
    (∃ seg, AfterLastSlash items.Ref seg) ∧
    ∀ seg, AfterLastSlash items.Ref seg →
      col.Type_.Base =
        translate (if items.Value.Format ≠ "" then items.Value.Format
          else if items.Value.Type_ = "object" then seg
          else items.Value.Type_) := by
  refine ⟨by simp [propertyColumn_type, SchemaRef.Value, Schema.Type_],
    by simp [propertyColumn, SchemaRef.Value, Schema.Type_],
    by simp [ColumnDef.MarshalJSON, propertyColumn_type, SchemaRef.Value, Schema.Type_],
    ⟨lastSegment items.Ref, afterLastSlash_lastSegment _⟩, fun seg hseg => ?_⟩
  rw [propertyColumn_type, ← lastSegment_of_afterLastSlash _ _ hseg]
  simp only [resolveBase, SchemaRef.Value, Schema.Items]

/-- C3 fails as stated: the property `$ref`-ing the schema named `integer` has
the base `int64`, while the part of its ref after the last `/` is `integer`. -/
theorem C3_counterexample :
    AfterLastSlash "#/components/schemas/integer" "integer" ∧
    (propertyColumn plainLib [] "count"
      (SchemaRef.mk "#/components/schemas/integer" (Schema.mk "integer" "" "" [] none []))
      ).Type_.Base = "int64" ∧
    (propertyColumn plainLib [] "count"
      (SchemaRef.mk "#/components/schemas/integer" (Schema.mk "integer" "" "" [] none []))
      ).Type_.Base ≠ "integer" := by
  refine ⟨⟨by decide, Or.inr ⟨"#/components/schemas", by decide⟩⟩, ?_⟩
  have hs : AfterLastSlash "#/components/schemas/integer" "integer" :=
    ⟨by decide, Or.inr ⟨"#/components/schemas", by decide⟩⟩
  have hb : (propertyColumn plainLib [] "count"
      (SchemaRef.mk "#/components/schemas/integer" (Schema.mk "integer" "" "" [] none []))
      ).Type_.Base = "int64" := by
    rw [propertyColumn_type]
    simp only [resolveBase, SchemaRef.Value, Schema.Items, SchemaRef.Ref]
    rw [if_pos (by decide), lastSegment_of_afterLastSlash _ _ hs]
    decide
  exact ⟨hb, by rw [hb]; decide⟩

/-- C3 (amended): a schema property with a non-empty `$ref` and no item schema
has as base the `baseTypes` translation of the part of the ref after its last
`/`, whatever the number of segments; the base is that part itself unless it is
one of `double`, `integer`, `number`, `boolean`. -/
theorem C3_ref_base (lib : Lib) (Required : List String) (kk ref ty fmt desc seg : String)
    (req : List String) (props : List (String × SchemaRef))
    (href : ref ≠ "") (hseg : AfterLastSlash ref seg) :
    let col := propertyColumn lib Required kk
      (SchemaRef.mk ref (Schema.mk ty fmt desc req none props))
    col.Type_.Base = translate seg ∧
    (seg ≠ "double" → seg ≠ "integer" → seg ≠ "number" → seg ≠ "boolean" →
      col.Type_.Base = seg) := by
  have hb : (propertyColumn lib Required kk
      (SchemaRef.mk ref (Schema.mk ty fmt desc req none props))).Type_.Base = translate seg := by
    rw [propertyColumn_type]
    simp only [resolveBase, SchemaRef.Value, Schema.Items, SchemaRef.Ref]
    rw [if_pos href, lastSegment_of_afterLastSlash _ _ hseg]
  refine ⟨hb, fun h1 h2 h3 h4 => ?_⟩
  rw [hb]
  simp [translate, baseTypes, h1, h2, h3, h4]

/-- C3 (amended) at the property `owner` with the ref
`#/components/schemas/User`: the base is `User`. -/
theorem C3_ref_base_witness :
    (propertyColumn plainLib [] "owner"
      (SchemaRef.mk "#/components/schemas/User" (Schema.mk "object" "" "" [] none []))
      ).Type_.Base = "User" :=
  (C3_ref_base plainLib [] "owner" "#/components/schemas/User" "object" "" "" "User" [] []
    (by decide) ⟨by decide, Or.inr ⟨"#/components/schemas", by decide⟩⟩).2
    (by decide) (by decide) (by decide) (by decide)

/-- C4: the translation applied to a resolved base maps `double` to `float64`,
`integer` and `number` to `int64`, `boolean` to `bool`, and returns every other
name, `string` among them, unchanged. -/
theorem C4_translate_table (s : String) :
    translate "double" = "float64" ∧ translate "integer" = "int64" ∧
    translate "number" = "int64" ∧ translate "boolean" = "bool" ∧
    translate "string" = "string" ∧
    translate s =
      (if s = "double" then "float64" else if s = "integer" ∨ s = "number" then "int64"
        else if s = "boolean" then "bool" else s) ∧
    (s ≠ "double" → s ≠ "integer" → s ≠ "number" → s ≠ "boolean" → translate s = s) := by
  refine ⟨by decide, by decide, by decide, by decide, by decide, ?_, ?_⟩
  · simp only [translate, baseTypes]
    split_ifs <;> simp_all
  · intro h1 h2 h3 h4
    simp [translate, baseTypes, h1, h2, h3, h4]

/-- In the table of an operation, the response map has an entry for a status
code exactly when `Content.Get("application/json")` finds a body in the
response of that code; every entry is the `TypeDef` of such a body, has
`notNull = true`, and its rendered type, as built and as `TypeDef.MarshalJSON`
recomputes it, is the resolved base prefixed by `[]` exactly when the body's
declared type is `array`. -/
theorem operationTable_entries (lib : Lib) (k verb : String) (v : Operation) (o : Table)
    (h : operationTable lib k verb v = some o) :
    (∀ code, (mapGet o.Responses code).isSome = true ↔
      ∃ r, (code, r) ∈ v.Responses ∧
        (lib.ContentGet r.Content "application/json").isSome = true) ∧
    (∀ code td, mapGet o.Responses code = some td →
      td.NotNull = true ∧ (TypeDef.MarshalJSON td).NotNull = true ∧
      ∃ r content schema, (code, r) ∈ v.Responses ∧
        lib.ContentGet r.Content "application/json" = some content ∧
        content.Schema = some schema ∧
        td.Type_.Base = resolveBase schema ∧
        td.Type_.Array = decide (schema.Value.Type_ = "array") ∧
        td.GoBaseType = resolveBase schema ∧
        td.GoType = (if schema.Value.Type_ = "array" then "[]" else "") ++ resolveBase schema ∧
        (TypeDef.MarshalJSON td).GoBaseType = resolveBase schema ∧
        (TypeDef.MarshalJSON td).GoType =
          (if schema.Value.Type_ = "array" then "[]" else "") ++ resolveBase schema) := by
  have hr := operationTable_responses lib k verb v o h
  constructor
  · intro code
    constructor
    · intro hsome
      obtain ⟨td, htd⟩ := Option.isSome_iff_exists.1 hsome
      rcases responsesLoop_sound lib _ _ _ hr code td htd with h1 | ⟨r, content, _, hm, hc, _, _⟩
      · simp [mapGet] at h1
      · exact ⟨r, hm, by rw [hc]; rfl⟩
    · intro hex
      exact responsesLoop_complete lib _ _ _ hr code (Or.inr hex)
  · intro code td htd
    rcases responsesLoop_sound lib _ _ _ hr code td htd with h1 | ⟨r, content, schema, hm, hc, hs, e⟩
    · simp [mapGet] at h1
    · subst e
      refine ⟨rfl, rfl, r, content, schema, hm, hc, hs, rfl, rfl,
        responseTypeDef_goBaseType _ _, responseTypeDef_goType _ _, ?_, ?_⟩
      · rw [typeDef_marshalJSON_goBaseType, responseTypeDef_notNull, responseTypeDef_type]
        simp
      · rw [typeDef_marshalJSON_goType, responseTypeDef_notNull, responseTypeDef_type]
        simp

/-- The lookup of `application/json` finds the body declared under
`application/json`, else the one under `application/*`, else the one under
`*/*`. -/
theorem contentGet_json (content : List (String × MediaType)) :
    contentGet content "application/json" =
      match mapGet content "application/json" with
      | some v => some v
      | none =>
        match mapGet content "application/*" with
        | some v => some v
        | none => mapGet content "*/*" := by
  have h0 : ¬ ("application/json" : String) = "" := by decide
  have h1 : String.mk (List.takeWhile (fun c => decide (c ≠ ';')) "application/json".data) =
      "application/json" := by decide
  have h2 : '/' ∈ ("application/json" : String).data := by decide
  have h3 : String.mk (List.takeWhile (fun c => decide (c ≠ '/')) "application/json".data) ++ "/*"
      = "application/*" := by decide
  simp only [contentGet, h0, if_false, h1, h2, if_true, h3]
  cases mapGet content "application/json" <;> rfl

theorem contentGet_json_isSome (content : List (String × MediaType)) :
    (contentGet content "application/json").isSome = true ↔
      (mapGet content "application/json").isSome = true ∨
      (mapGet content "application/*").isSome = true ∨
      (mapGet content "*/*").isSome = true := by
  rw [contentGet_json]
  cases mapGet content "application/json" <;> cases mapGet content "application/*" <;>
    cases mapGet content "*/*" <;> simp

/-- C6 fails as stated: with the lookup of kin-openapi, the response 200 of the
operation declares no `application/json` body, only one under `*/*`, and has
an entry in the response map; the response 201 declares one under
`application/json; charset=utf-8` and has none; the response 202, under
`application/json`, has one. -/
theorem C6_counterexample :
    ∃ o, operationTable kinLib "/report" "get" mixedMediaTypes = some o ∧
      mapGet mixedMediaTypes.Responses "200" =
        some { Description := none,
               Content := [("*/*", { Schema := some (plainSchema "string") })] } ∧
      (mapGet [("*/*", ({ Schema := some (plainSchema "string") } : MediaType))]
        "application/json").isSome = false ∧
      (mapGet o.Responses "200").isSome = true ∧
      (mapGet o.Responses "201").isSome = false ∧
      (mapGet o.Responses "202").isSome = true ∧
      o.Responses.map (fun p => (p.1, p.2.GoType, p.2.NotNull)) =
        [("200", "string", true), ("202", "int64", true)] :=
  ⟨_, rfl, rfl, by decide, by decide, by decide, by decide, by decide⟩

/-- C6 (amended): in the table of an operation, the response map has an entry
for a status code exactly when `Content.Get("application/json")` finds a body
in the response of that code, which with the lookup of kin-openapi is: the
response declares a body under `application/json`, under `application/*` or
under `*/*`; every entry is the `TypeDef` of the body found, has
`notNull = true`, and its rendered type, as built and as `TypeDef.MarshalJSON`
recomputes it, is the resolved base prefixed by `[]` exactly when the body's
declared type is `array`, without the marker `*`. -/
theorem C6_response_entries (lib : Lib) (k verb : String) (v : Operation) (o : Table)
    (hget : lib.ContentGet = contentGet)
    (h : operationTable lib k verb v = some o) :
    (∀ code, (mapGet o.Responses code).isSome = true ↔
      ∃ r, (code, r) ∈ v.Responses ∧
        ((mapGet r.Content "application/json").isSome = true ∨
         (mapGet r.Content "application/*").isSome = true ∨
         (mapGet r.Content "*/*").isSome = true)) ∧
    (∀ code td, mapGet o.Responses code = some td →
      td.NotNull = true ∧ (TypeDef.MarshalJSON td).NotNull = true ∧
      ∃ r content schema, (code, r) ∈ v.Responses ∧
        contentGet r.Content "application/json" = some content ∧
        content.Schema = some schema ∧
        td.Type_.Base = resolveBase schema ∧
        td.Type_.Array = decide (schema.Value.Type_ = "array") ∧
        td.GoBaseType = resolveBase schema ∧
        td.GoType = (if schema.Value.Type_ = "array" then "[]" else "") ++ resolveBase schema ∧
        (TypeDef.MarshalJSON td).GoBaseType = resolveBase schema ∧
        (TypeDef.MarshalJSON td).GoType =
          (if schema.Value.Type_ = "array" then "[]" else "") ++ resolveBase schema) := by
  have hgen := operationTable_entries lib k verb v o h
  rw [hget] at hgen
  refine ⟨fun code => ?_, hgen.2⟩
  rw [hgen.1 code]
  constructor
  · rintro ⟨r, hm, hj⟩
    exact ⟨r, hm, (contentGet_json_isSome _).1 hj⟩
  · rintro ⟨r, hm, hj⟩
    exact ⟨r, hm, (contentGet_json_isSome _).2 hj⟩

/-- C6 (amended) at the operation `ListOrders`: the code 200, with a body under
`application/json`, has an entry that is not optional, and the code 204,
without body, has none. -/
theorem C6_response_entries_witness :
    ∃ o, operationTable kinLib "/orders" "get" listOrders = some o ∧
      (mapGet o.Responses "200").isSome = true ∧
      ¬ ((mapGet o.Responses "204").isSome = true) ∧
      ∀ td, mapGet o.Responses "200" = some td → td.NotNull = true :=
  ⟨_, rfl, by decide, by decide,
    fun td h =>
      ((C6_response_entries kinLib "/orders" "get" listOrders _ rfl rfl).2 "200" td h).1⟩

/-- C7: the emitted data list is a permutation of the built tables, ascending
by key in the lexicographic order of strings, and for every key the tables of
that key keep their build order; `Table.MarshalJSON` leaves the keys as they
are.  When the built tables are keyed `Order`, `Item` and `ListOrders`, in any
order, the emitted keys are `Item`, `ListOrders`, `Order`. -/
theorem C7_sorted_stable (lib : Lib) (order : String → List String) (doc : T)
    (parsed : List Table) (meta_ : Meta) (h : parseDDL lib order doc = some (parsed, meta_)) :
    ∃ fileContent, process lib order doc = some fileContent ∧
      fileContent.Data.Perm parsed ∧
      fileContent.Data.Pairwise (fun a b => a.Key ≤ b.Key) ∧
      (∀ k, fileContent.Data.filter (fun t => decide (t.Key = k)) =
        parsed.filter (fun t => decide (t.Key = k))) ∧
      (fileContent.emitted lib).Data.map Table.Key = fileContent.Data.map Table.Key ∧
      ((parsed.map Table.Key).Perm ["Order", "Item", "ListOrders"] →
        (fileContent.emitted lib).Data.map Table.Key = ["Item", "ListOrders", "Order"]) := by
  refine ⟨FileContent.mk "openapi" "openapi"
      (sliceStable (fun a b => stringLess a.Key b.Key) parsed) meta_,
    by simp only [process, h], sliceStable_perm _ _, sliceStable_sorted Table.Key _,
    fun k => sliceStable_filter Table.Key k _, ?_, ?_⟩
  · simp [FileContent.emitted, table_marshalJSON_key]
  · intro hp
    have hk : ((FileContent.emitted lib (FileContent.mk "openapi" "openapi"
        (sliceStable (fun a b => stringLess a.Key b.Key) parsed) meta_)).Data.map Table.Key) =
        (sliceStable (fun a b => stringLess a.Key b.Key) parsed).map Table.Key := by
      simp [FileContent.emitted, table_marshalJSON_key]
    rw [hk]
    have hperm : ((sliceStable (fun a b => stringLess a.Key b.Key) parsed).map Table.Key).Perm
        ["Item", "ListOrders", "Order"] :=
      ((sliceStable_perm _ parsed).map Table.Key).trans
        (hp.trans (by decide))
    have hs1 : List.Sorted (· ≤ ·)
        ((sliceStable (fun a b => stringLess a.Key b.Key) parsed).map Table.Key) :=
      List.pairwise_map.2 (sliceStable_sorted Table.Key parsed)
    have hlt1 : "Item" ≤ "ListOrders" := le_of_lt ((stringLess_iff _ _).1 (by decide))
    have hlt2 : "ListOrders" ≤ "Order" := le_of_lt ((stringLess_iff _ _).1 (by decide))
    have hs2 : List.Sorted (· ≤ ·) ["Item", "ListOrders", "Order"] := by
      unfold List.Sorted
      rw [List.pairwise_cons, List.pairwise_cons, List.pairwise_cons]
      refine ⟨fun z hz => ?_, fun z hz => ?_, fun z hz => ?_, List.Pairwise.nil⟩
      · simp only [List.mem_cons, List.mem_singleton, List.not_mem_nil, or_false] at hz
        rcases hz with rfl | rfl
        exacts [hlt1, le_trans hlt1 hlt2]
      · simp only [List.mem_cons, List.mem_singleton, List.not_mem_nil, or_false] at hz
        subst hz
        exact hlt2
      · exact absurd hz (List.not_mem_nil _)
    exact List.eq_of_perm_of_sorted hperm hs1 hs2

/-- C7 at the document of the end-to-end example: the schemas `Order` and
`Item` and the operation `ListOrders` are emitted as `Item`, `ListOrders`,
`Order`. -/
theorem C7_sorted_stable_witness :
    ∃ fileContent, process plainLib verbOrder orderDoc = some fileContent ∧
      (fileContent.emitted plainLib).Data.map Table.Key = ["Item", "ListOrders", "Order"] :=
  have ⟨fileContent, h1, _, _, _, _, h2⟩ :=
    C7_sorted_stable plainLib verbOrder orderDoc
      (orderDoc.Schemas.map (fun p => schemaTable plainLib p.1 p.2) ++
        [(operationTable plainLib "/orders" "get" listOrders).getD {}])
      { info := orderDoc.Info, servers := orderDoc.Servers } rfl
  ⟨fileContent, h1, h2 (List.Perm.refl _)⟩

/-- C8 fails on the code: the schema `Pet` with the properties `id` and `name`
is emitted with the columns `id`, `name` when the property map is enumerated
in that order and with the columns `name`, `id` when it is enumerated in the
other, so the two envelopes differ. -/
theorem C8_property_order_shows (lib : Lib) (order : String → List String) :
    List.Perm [("id", plainSchema "integer"), ("name", plainSchema "string")]
      [("name", plainSchema "string"), ("id", plainSchema "integer")] ∧
    (process lib order
        (petDoc [("id", plainSchema "integer"), ("name", plainSchema "string")])).map
      (fun fileContent => (fileContent.emitted lib).Data.map
        (fun t => t.Columns.map ColumnDef.NameExactJson)) = some [["id", "name"]] ∧
    (process lib order
        (petDoc [("name", plainSchema "string"), ("id", plainSchema "integer")])).map
      (fun fileContent => (fileContent.emitted lib).Data.map
        (fun t => t.Columns.map ColumnDef.NameExactJson)) = some [["name", "id"]] ∧
    (process lib order
        (petDoc [("id", plainSchema "integer"), ("name", plainSchema "string")])).map
      (FileContent.emitted lib) ≠
    (process lib order
        (petDoc [("name", plainSchema "string"), ("id", plainSchema "integer")])).map
      (FileContent.emitted lib) := by
  refine ⟨List.Perm.swap _ _ _, rfl, rfl, fun h => ?_⟩
  have h2 := congrArg (Option.map (fun fileContent : FileContent =>
    fileContent.Data.map (fun t => t.Columns.map ColumnDef.NameExactJson))) h
  have h3 : some [["id", "name"]] = some [["name", "id"]] := h2
  exact absurd h3 (by decide)

/-- C9 fails as stated: the document with the one schema `Pet` and the one
operation `Pet` has pairwise distinct schema names and pairwise distinct
operation identifiers, and its two tables have the same key. -/
theorem C9_counterexample :
    (petPetDoc.Schemas.map Prod.fst).Nodup ∧ (pathOperationIDs petPetDoc.Paths).Nodup ∧
    ∃ tables meta_, parseDDL plainLib verbOrder petPetDoc = some (tables, meta_) ∧
      tables.map Table.Key = ["Pet", "Pet"] ∧ ¬ (tables.map Table.Key).Nodup :=
  ⟨by decide, by decide, _, _, rfl, rfl, by decide⟩

/-- C9 (amended): the keys of the produced tables are pairwise distinct exactly
when the PascalCase identifiers (`snaker.ForceCamelIdentifier`) of the schema
names and of the operation identifiers, all taken together, are pairwise
distinct; the verb map of a path is enumerated once a verb. -/
theorem C9_keys_distinct (lib : Lib) (order : String → List String) (doc : T)
    (tables : List Table) (meta_ : Meta)
    (hord : ∀ k, (order k).Perm ["get", "post", "delete", "patch", "put"])
    (h : parseDDL lib order doc = some (tables, meta_)) :
    (((doc.Schemas.map Prod.fst ++ pathOperationIDs doc.Paths).map
        lib.ForceCamelIdentifier).Nodup → (tables.map Table.Key).Nodup) ∧
    ((tables.map Table.Key).Nodup →
      ((doc.Schemas.map Prod.fst ++ pathOperationIDs doc.Paths).map
        lib.ForceCamelIdentifier).Nodup) := by
  have hp := parseDDL_keys lib order hord doc tables meta_ h
  exact ⟨fun hn => hp.nodup_iff.2 hn, fun hn => hp.nodup_iff.1 hn⟩

/-- C9 (amended) at the document of the end-to-end example: the keys `Order`,
`Item`, `ListOrders` are pairwise distinct. -/
theorem C9_keys_distinct_witness :
    ∃ tables meta_, parseDDL plainLib verbOrder orderDoc = some (tables, meta_) ∧
      tables.map Table.Key = ["Order", "Item", "ListOrders"] ∧ (tables.map Table.Key).Nodup :=
  ⟨_, _, rfl, rfl,
    (C9_keys_distinct plainLib verbOrder orderDoc _ _ (fun _ => List.Perm.refl _) rfl).1
      (by decide)⟩

/-- C10 on the code: the serialized key of a schema property's column is
`jsonKey` of the property's key, and the serialized key of an operation
parameter's column is `jsonKey` of the empty string whatever the parameter's
name, `NameExactJson` not being set on that path. -/
theorem C10_parameter_key_shows (lib : Lib) (Required : List String) (kk : String)
    (_vv : SchemaRef) (vv : Parameter) (colDef : ColumnDef)
    (h : parameterColumn lib vv = some colDef) :
    (ColumnDef.MarshalJSON lib (propertyColumn lib Required kk _vv)).Key = jsonKey lib kk ∧
    colDef.NameExactJson = "" ∧
    (ColumnDef.MarshalJSON lib colDef).Key = jsonKey lib "" := by
  have hn := parameterColumn_nameExactJson lib vv colDef h
  refine ⟨rfl, hn, ?_⟩
  rw [columnDef_marshalJSON_key, hn]

/-- C10 at the parameter `userId`: the serialized key is the empty string, and
`jsonKey` of the name is `userId`. -/
theorem C10_parameter_key_shows_witness :
    ∃ colDef, parameterColumn plainLib userIdParameter = some colDef ∧
      (ColumnDef.MarshalJSON plainLib colDef).Key = "" ∧
      jsonKey plainLib userIdParameter.Name = "userId" :=
  ⟨_, rfl,
    (C10_parameter_key_shows plainLib [] "id" (plainSchema "integer") userIdParameter _ rfl).2.2.trans
      (by decide),
    by decide⟩

/-- C11 fails on the code: the column of a parameter whose schema has the
declared type `array`, whatever its item schema, has the array flag unset and
the base `array`, and renders as `array` or `*array`. -/
theorem C11_parameter_array_shows (lib : Lib) (name in_ desc ref fmt sdesc : String)
    (required : Bool) (req : List String) (items : Option SchemaRef)
    (props : List (String × SchemaRef)) :
    (parameterColumn lib
        { Name := name, In := in_, Description := desc, Required := required,
          Schema := some (SchemaRef.mk ref (Schema.mk "array" fmt sdesc req items props)) }).map
      (fun colDef => (colDef.Type_.Array, colDef.IsArray, colDef.Type_.Base, colDef.GoType,
        (ColumnDef.MarshalJSON lib colDef).IsArray, (ColumnDef.MarshalJSON lib colDef).GoType)) =
      some (false, false, "array", (if required = true then "array" else "*array"),
        false, (if required = true then "array" else "*array")) ∧
    (parameterColumn plainLib idsParameter).map
      (fun colDef => (colDef.Type_.Array, colDef.Type_.Base, colDef.GoType)) =
      some (false, "array", "array") ∧
    (propertyColumn plainLib ["ids"] "ids"
      (SchemaRef.mk "" (Schema.mk "array" "" "" [] (some (plainSchema "integer")) []))).GoType =
      "[]int64" := by
  refine ⟨?_, by decide, by decide⟩
  cases required <;>
    simp [parameterColumn, ColumnDef.MarshalJSON, SchemaRef.Value, Schema.Type_, translate,
      baseTypes]

/-- C12 fails as stated: the property `lines` of `Cart` is an array whose
object item has the empty ref, which has no trailing identifier segment;
`parseDDL` returns its tables, and the base of the column is the empty
string. -/
theorem C12_counterexample :
    AfterLastSlash "" "" ∧
    ∃ tables meta_, parseDDL plainLib verbOrder cartDoc = some (tables, meta_) ∧
      tables.map (fun t => t.Columns.map (fun colDef => (colDef.NameExactJson, colDef.Type_.Base)))
        = [[("lines", "")]] :=
  ⟨⟨by decide, Or.inl rfl⟩, _, _, rfl, by decide⟩

/-- C12 (amended): a ref whose part after the last `/` is empty (the empty ref,
or a ref that ends in `/`) is no error: `parseDDL` returns the tables of the schemas,
in the order of the schema map, followed by the tables of the paths, on every
document in which each parameter and each JSON body has a schema; and the base
resolved from such a ref, for an object item of an array or for the node
itself, is the empty string. -/
theorem C12_empty_segment_base (lib : Lib) (order : String → List String) (doc : T)
    (ref : String)
    (hdoc : ∀ p ∈ doc.Paths, ∀ v ∈ declaredOperations p.2, SchemasPresent lib v)
    (href : AfterLastSlash ref "") :
    (∃ more, parseDDL lib order doc =
      some (doc.Schemas.map (fun p => schemaTable lib p.1 p.2) ++ more,
        { info := doc.Info, servers := doc.Servers })) ∧
    (∀ (Required : List String) (kk nref ty fmt desc idesc : String) (req ireq : List String)
      (props iprops : List (String × SchemaRef)) (iitems : Option SchemaRef),
      (propertyColumn lib Required kk (SchemaRef.mk nref (Schema.mk ty fmt desc req
        (some (SchemaRef.mk ref (Schema.mk "object" "" idesc ireq iitems iprops))) props))
        ).Type_.Base = "" ∧
      (responseTypeDef (SchemaRef.mk nref (Schema.mk ty fmt desc req
        (some (SchemaRef.mk ref (Schema.mk "object" "" idesc ireq iitems iprops))) props))
        none).Type_.Base = "") ∧
    (ref ≠ "" →
      ∀ (Required : List String) (kk ty fmt desc : String) (req : List String)
        (props : List (String × SchemaRef)),
        (propertyColumn lib Required kk
          (SchemaRef.mk ref (Schema.mk ty fmt desc req none props))).Type_.Base = "") := by
  have hl : lastSegment ref = "" := lastSegment_of_afterLastSlash _ _ href
  refine ⟨?_, ?_, ?_⟩
  · obtain ⟨ts, hts⟩ := Option.isSome_iff_exists.1 (pathTables_isSome lib order doc.Paths hdoc)
    exact ⟨ts, by simp [parseDDL, hts]⟩
  · intro Required kk nref ty fmt desc idesc req ireq props iprops iitems
    constructor
    · rw [propertyColumn_type]
      simp [resolveBase, SchemaRef.Value, Schema.Items, Schema.Format, Schema.Type_,
        SchemaRef.Ref, hl, translate, baseTypes]
    · rw [responseTypeDef_type]
      simp [resolveBase, SchemaRef.Value, Schema.Items, Schema.Format, Schema.Type_,
        SchemaRef.Ref, hl, translate, baseTypes]
  · intro hne Required kk ty fmt desc req props
    rw [propertyColumn_type]
    simp [resolveBase, SchemaRef.Value, Schema.Items, SchemaRef.Ref, hne, hl, translate,
      baseTypes]

/-- C12 (amended) at the document `Cart`: the tables are returned and the base
of an array of objects declared in place is the empty string. -/
theorem C12_empty_segment_base_witness :
    (∃ more, parseDDL plainLib verbOrder cartDoc =
      some (cartDoc.Schemas.map (fun p => schemaTable plainLib p.1 p.2) ++ more,
        { info := cartDoc.Info, servers := cartDoc.Servers })) ∧
    (propertyColumn plainLib [] "lines" (SchemaRef.mk "" (Schema.mk "array" "" "" []
        (some (SchemaRef.mk "" (Schema.mk "object" "" "" [] none
          [("sku", plainSchema "string")]))) []))).Type_.Base = "" :=
  have h := C12_empty_segment_base plainLib verbOrder cartDoc ""
    (fun p hp => absurd hp (List.not_mem_nil p)) ⟨by decide, Or.inl rfl⟩
  ⟨h.1, (h.2.1 [] "lines" "" "array" "" "" "" [] [] [] [("sku", plainSchema "string")] none).1⟩

/-- C19 fails as stated: the property without declared type, without `$ref` and
with the item schema `string` has the base `string`, the item's type, while its
own declared type is not `array` and translates to the empty string. -/
theorem C19_counterexample :
    untypedItems.Value.Type_ ≠ "array" ∧ untypedItems.Ref = "" ∧
    translate untypedItems.Value.Type_ = "" ∧
    (propertyColumn plainLib [] "tags" untypedItems).Type_.Base = "string" ∧
    (propertyColumn plainLib [] "tags" untypedItems).Type_.Array = false := by
  decide

/-- C19 (amended): for a schema property without item schema, whatever its
declared type, the base is the `baseTypes` translation of the part of the
node's `$ref` after its last `/` when the ref is not empty, and of the node's
declared type otherwise; when an item schema is present it decides the base,
whatever the declared type is. -/
theorem C19_base_without_items (lib : Lib) (Required : List String)
    (kk ref ty fmt desc : String) (req : List String) (props : List (String × SchemaRef))
    (items : SchemaRef) :
    (ref ≠ "" → ∀ seg, AfterLastSlash ref seg →
      (propertyColumn lib Required kk
        (SchemaRef.mk ref (Schema.mk ty fmt desc req none props))).Type_.Base = translate seg) ∧
    (propertyColumn lib Required kk
      (SchemaRef.mk "" (Schema.mk ty fmt desc req none props))).Type_.Base = translate ty ∧
    (∀ seg, AfterLastSlash items.Ref seg →
      (propertyColumn lib Required kk
        (SchemaRef.mk ref (Schema.mk ty fmt desc req (some items) props))).Type_.Base =
        translate (if items.Value.Format ≠ "" then items.Value.Format
          else if items.Value.Type_ = "object" then seg
          else items.Value.Type_)) := by
  refine ⟨fun hne seg hseg => ?_, ?_, fun seg hseg => ?_⟩
  · rw [propertyColumn_type]
    simp only [resolveBase, SchemaRef.Value, Schema.Items, SchemaRef.Ref]
    rw [if_pos hne, lastSegment_of_afterLastSlash _ _ hseg]
  · rw [propertyColumn_type]
    simp [resolveBase, SchemaRef.Value, Schema.Items, SchemaRef.Ref, Schema.Type_]
  · rw [propertyColumn_type, ← lastSegment_of_afterLastSlash _ _ hseg]
    simp only [resolveBase, SchemaRef.Value, Schema.Items]

/-- C13: the function `plural` returns `informations` when `inflection.Plural`
returns `information`, `Informations` when it returns `Information`, and the
result of `inflection.Plural` in every other case; when `inflection.Plural`
leaves `information` and `Information` as they are, their plurals are
`informations` and `Informations`. -/
theorem C13_plural_override (lib : Lib) (s : String) :
    (lib.Plural s = "information" → plural lib s = "informations") ∧
    (lib.Plural s = "Information" → plural lib s = "Informations") ∧
    (lib.Plural s ≠ "information" → lib.Plural s ≠ "Information" →
      plural lib s = lib.Plural s) ∧
    (lib.Plural "information" = "information" → plural lib "information" = "informations") ∧
    (lib.Plural "Information" = "Information" → plural lib "Information" = "Informations") := by
  refine ⟨fun h => ?_, fun h => ?_, fun h1 h2 => ?_, fun h => ?_, fun h => ?_⟩
  · simp [plural, h]
  · simp [plural, h]
  · simp [plural, h1, h2]
  · simp [plural, h]
  · simp [plural, h]

/-- C13 at a pluralizer that leaves its argument as it is. -/
theorem C13_plural_override_witness :
    plural plainLib "information" = "informations" ∧
    plural plainLib "Information" = "Informations" ∧ plural plainLib "order" = "order" :=
  ⟨(C13_plural_override plainLib "information").2.2.2.1 rfl,
    (C13_plural_override plainLib "Information").2.2.2.2 rfl, by decide⟩

/-- C14: with `c` the lower-camel form of the raw key, `jsonKey` is `id` when `c`
is `id`, is `c` with its final `id` replaced by `Id` when `c` ends with `id`
and is longer (which is `c` having more than two characters, and is `c` not
being `id`), and is `c` when `c` does not end with `id`; so `jsonKey` ends with
`id` only when it is `id`, and `orderId` stays `orderId`.  The serialized
`nameJson` and `key` of a column are `jsonKey` of its raw key. -/
theorem C14_jsonKey_suffix (lib : Lib) (rawKey : String) (x : ColumnDef) :
    (lib.ToLowerCamel rawKey = "id" → jsonKey lib rawKey = "id") ∧
    (∀ front : String, lib.ToLowerCamel rawKey = front ++ "id" → front ≠ "" →
      jsonKey lib rawKey = front ++ "Id") ∧
    ((¬ ∃ front : String, lib.ToLowerCamel rawKey = front ++ "id") →
      jsonKey lib rawKey = lib.ToLowerCamel rawKey) ∧
    (∀ front : String, lib.ToLowerCamel rawKey = front ++ "id" →
      (front ≠ "" ↔ 2 < (lib.ToLowerCamel rawKey).length) ∧
      (front ≠ "" ↔ lib.ToLowerCamel rawKey ≠ "id")) ∧
    ((∃ front : String, jsonKey lib rawKey = front ++ "id") → jsonKey lib rawKey = "id") ∧
    (lib.ToLowerCamel rawKey = "orderId" → jsonKey lib rawKey = "orderId") ∧
    (ColumnDef.MarshalJSON lib x).NameJson = jsonKey lib x.NameExactJson ∧
    (ColumnDef.MarshalJSON lib x).Key = jsonKey lib x.NameExactJson := by
  have hne : ∀ front : String, lib.ToLowerCamel rawKey = front ++ "id" →
      (front ≠ "" ↔ lib.ToLowerCamel rawKey ≠ "id") := by
    intro front hf
    constructor
    · intro h0 hc
      have h1 : front ++ "id" = "" ++ "id" := by rw [← hf, hc]; rfl
      exact h0 (suffix_eq_of_append_eq _ _ _ _ h1 rfl).1
    · intro h0 hc
      apply h0
      rw [hf, hc]
      rfl
  refine ⟨fun h => ?_, fun front hf h0 => ?_, fun h => ?_, fun front hf => ⟨?_, hne front hf⟩,
    ?_, fun h => ?_, rfl, rfl⟩
  · simp [jsonKey, h]
  · have h1 : lib.ToLowerCamel rawKey ≠ "id" := (hne front hf).1 h0
    have h2 : hasSuffix (lib.ToLowerCamel rawKey) "id" = true := (hasSuffix_iff _ _).2 ⟨front, hf⟩
    have h3 : dropRight (front ++ "id") 2 = front := dropRight_append front "id"
    simp only [jsonKey, ne_eq, h1, not_false_eq_true, h2, and_self, if_true]
    rw [hf, h3]
  · have h2 : ¬ hasSuffix (lib.ToLowerCamel rawKey) "id" = true :=
      fun hs => h ((hasSuffix_iff _ _).1 hs)
    simp [jsonKey, h2]
  · rw [hf, String.length_append]
    have h2 : "id".length = 2 := rfl
    rw [h2]
    constructor
    · intro h0
      have : front.length ≠ 0 := fun hl => h0 (String.ext (List.length_eq_zero.1 hl))
      omega
    · intro hl h0
      rw [h0] at hl
      exact absurd hl (by decide)
  · rintro ⟨front, hf⟩
    by_cases hc : lib.ToLowerCamel rawKey ≠ "id" ∧ hasSuffix (lib.ToLowerCamel rawKey) "id" = true
    · have e : jsonKey lib rawKey = dropRight (lib.ToLowerCamel rawKey) 2 ++ "Id" := by
        simp only [jsonKey]
        rw [if_pos hc]
      rw [e] at hf
      exact absurd (suffix_eq_of_append_eq _ _ _ _ hf rfl).2 (by decide)
    · have e : jsonKey lib rawKey = lib.ToLowerCamel rawKey := by
        simp only [jsonKey]
        rw [if_neg hc]
      rw [e] at hf ⊢
      have hs : hasSuffix (lib.ToLowerCamel rawKey) "id" = true := (hasSuffix_iff _ _).2 ⟨front, hf⟩
      by_contra hid
      exact hc ⟨hid, hs⟩
  · have h2 : hasSuffix "orderId" "id" = false := by decide
    simp [jsonKey, h, h2]

/-- C15: the serialized plural identifier of a column is `plural` of its
PascalCase identifier with a final `ids` replaced by `Ids`, and is that plural
when it does not end with `ids`; it never ends with `ids` and has the length
of the plural. -/
theorem C15_plural_identifier (lib : Lib) (x : ColumnDef) :
    (∀ front : String, plural lib x.GoName = front ++ "ids" →
      (ColumnDef.MarshalJSON lib x).GoNames = front ++ "Ids") ∧
    ((¬ ∃ front : String, plural lib x.GoName = front ++ "ids") →
      (ColumnDef.MarshalJSON lib x).GoNames = plural lib x.GoName) ∧
    (¬ ∃ front : String, (ColumnDef.MarshalJSON lib x).GoNames = front ++ "ids") ∧
    (ColumnDef.MarshalJSON lib x).GoNames.length = (plural lib x.GoName).length := by
  have e : (ColumnDef.MarshalJSON lib x).GoNames =
      if hasSuffix (plural lib x.GoName) "ids" = true then
        dropRight (plural lib x.GoName) 3 ++ "Ids"
      else plural lib x.GoName := rfl
  have h3 : ∀ front : String, dropRight (front ++ "ids") 3 = front :=
    fun front => dropRight_append front "ids"
  have hyes : ∀ front : String, plural lib x.GoName = front ++ "ids" →
      (ColumnDef.MarshalJSON lib x).GoNames = front ++ "Ids" := by
    intro front hf
    have hs : hasSuffix (plural lib x.GoName) "ids" = true := (hasSuffix_iff _ _).2 ⟨front, hf⟩
    rw [e, if_pos hs, hf, h3]
  have hno : (¬ ∃ front : String, plural lib x.GoName = front ++ "ids") →
      (ColumnDef.MarshalJSON lib x).GoNames = plural lib x.GoName := by
    intro h
    have hs : ¬ hasSuffix (plural lib x.GoName) "ids" = true :=
      fun hs => h ((hasSuffix_iff _ _).1 hs)
    rw [e, if_neg hs]
  refine ⟨hyes, hno, ?_, ?_⟩
  · rintro ⟨front, hf⟩
    by_cases hp : ∃ f : String, plural lib x.GoName = f ++ "ids"
    · obtain ⟨f, hfp⟩ := hp
      rw [hyes f hfp] at hf
      exact absurd (suffix_eq_of_append_eq _ _ _ _ hf rfl).2 (by decide)
    · rw [hno hp] at hf
      exact hp ⟨front, hf⟩
  · by_cases hp : ∃ f : String, plural lib x.GoName = f ++ "ids"
    · obtain ⟨f, hfp⟩ := hp
      rw [hyes f hfp, hfp, String.length_append, String.length_append]
      rfl
    · rw [hno hp]

/-- C14 at the raw keys `userid`, `id` and `orderId`, the lower-camel form being
the key itself. -/
theorem C14_jsonKey_suffix_witness :
    jsonKey plainLib "userid" = "userId" ∧ jsonKey plainLib "id" = "id" ∧
    jsonKey plainLib "orderId" = "orderId" :=
  ⟨(C14_jsonKey_suffix plainLib "userid" {}).2.1 "user" rfl (by decide),
    (C14_jsonKey_suffix plainLib "id" {}).1 rfl,
    (C14_jsonKey_suffix plainLib "orderId" {}).2.2.2.2.2.1 rfl⟩

/-- C15 at the column `UserId`, whose plural is `UserIds`, the pluralizer giving
`Userids`. -/
theorem C15_plural_identifier_witness :
    (ColumnDef.MarshalJSON { plainLib with Plural := fun s => s ++ "s" }
      { GoName := "Userid" }).GoNames = "UserIds" :=
  (C15_plural_identifier { plainLib with Plural := fun s => s ++ "s" } { GoName := "Userid" }).1
    "User" (by decide)

/-- C16: for every string `s`, `shortName s` is the letters `A` to `Z` of `s`, in
their order, each in lower case; its length is the number of these letters in
`s`, and none of its characters is one of `A` to `Z`; `shortName` of
`UserProfile` is `up` and of `ID` is `id`. -/
theorem C16_shortName_letters (lib : Lib) (s : String) :
    shortName lib s = String.mk ((s.data.filter Char.isUpper).map Char.toLower) ∧
    (shortName lib s).length = s.data.countP Char.isUpper ∧
    (∀ c ∈ (shortName lib s).data, c.isUpper = false) ∧
    shortName lib "UserProfile" = "up" ∧ shortName lib "ID" = "id" := by
  have hup : ∀ t : String, ∀ c ∈ (shortName lib t).data, c.isUpper = false := by
    intro t c hc
    simp only [shortName, shortNameRe_FindAllString, join_singletons, stringsToLower,
      filter_upper_eq, List.mem_map, List.mem_filter] at hc
    obtain ⟨a, ⟨_, ha⟩, rfl⟩ := hc
    exact (unicodeToLower_of_upper _ a ha).2
  have e1 : ∀ t : String,
      shortName lib t = String.mk ((t.data.filter Char.isUpper).map Char.toLower) := by
    intro t
    simp only [shortName, shortNameRe_FindAllString, join_singletons, stringsToLower,
      filter_upper_eq]
    congr 1
    apply List.map_congr_left
    intro c hc
    exact (unicodeToLower_of_upper _ c (List.mem_filter.1 hc).2).1
  refine ⟨e1 s, ?_, hup s, ?_, ?_⟩
  · rw [e1 s, List.countP_eq_length_filter]
    simp [String.length]
  · rw [e1]; decide
  · rw [e1]; decide

/-- C17: the function `lowerCamel` returns the empty string on the empty string
and otherwise `unicode.ToLower` of the first rune followed by the rest as it
is, so it changes no character after the first and keeps the length; it is
idempotent when the first rune is ASCII, and on every string when lowering a
rune above ASCII gives a rune that lowering leaves as it is. -/
theorem C17_lowerCamel_first_rune (lib : Lib) (s : String) :
    (s = "" → lowerCamel lib s = "") ∧
    (∀ r rest, s.data = r :: rest →
      (lowerCamel lib s).data = unicodeToLower lib.ToLowerCase r :: rest) ∧
    (lowerCamel lib s).data.tail = s.data.tail ∧
    (lowerCamel lib s).data.length = s.data.length ∧
    (∀ r rest, s.data = r :: rest → r.toNat ≤ 127 →
      lowerCamel lib (lowerCamel lib s) = lowerCamel lib s) ∧
    ((∀ r : Char, 127 < r.toNat →
        unicodeToLower lib.ToLowerCase (lib.ToLowerCase r) = lib.ToLowerCase r) →
      lowerCamel lib (lowerCamel lib s) = lowerCamel lib s) := by
  have hidem : ∀ r rest, s.data = r :: rest →
      unicodeToLower lib.ToLowerCase (unicodeToLower lib.ToLowerCase r) =
        unicodeToLower lib.ToLowerCase r →
      lowerCamel lib (lowerCamel lib s) = lowerCamel lib s := by
    intro r rest h hr
    apply String.ext
    rw [lowerCamel_data lib _ rest (lowerCamel lib s) (lowerCamel_data lib r rest s h),
      lowerCamel_data lib r rest s h, hr]
  refine ⟨fun h => ?_, fun r rest h => lowerCamel_data lib r rest s h, ?_, ?_, ?_, ?_⟩
  · subst h; rfl
  · rcases hs : s.data with _ | ⟨r, rest⟩
    · simp [lowerCamel, hs]
    · rw [lowerCamel_data lib r rest s hs]; rfl
  · rcases hs : s.data with _ | ⟨r, rest⟩
    · simp [lowerCamel, hs]
    · rw [lowerCamel_data lib r rest s hs]; rfl
  · intro r rest h h127
    apply hidem r rest h
    by_cases hup : 'A'.toNat ≤ r.toNat ∧ r.toNat ≤ 'Z'.toNat
    · have e : unicodeToLower lib.ToLowerCase r = Char.ofNat (r.toNat + 32) := by
        simp only [unicodeToLower, h127, hup, and_self, if_true]
      have h1 : 'A'.toNat = 65 := rfl
      have h2 : 'Z'.toNat = 90 := rfl
      have hb := isUpper_ofNat_add r.toNat (by omega) (by omega)
      have hnot : ¬ ('A'.toNat ≤ (Char.ofNat (r.toNat + 32)).toNat ∧
          (Char.ofNat (r.toNat + 32)).toNat ≤ 'Z'.toNat) := by
        intro hc
        have := (isUpper_iff _).2 hc
        rw [hb.1] at this
        exact absurd this (by decide)
      rw [e]
      simp only [unicodeToLower, hb.2, hnot, if_true, if_false]
    · have e : unicodeToLower lib.ToLowerCase r = r := by
        simp only [unicodeToLower, h127, hup, if_true, if_false]
      rw [e, e]
  · intro hT
    rcases hs : s.data with _ | ⟨r, rest⟩
    · have : s = "" := String.ext hs
      subst this
      rfl
    · exact hidem r rest hs (unicodeToLower_idem _ hT r)

/-- C17 at `École` and `UserProfile`, the case table lowering `É` to `é`. -/
theorem C17_lowerCamel_first_rune_witness :
    lowerCamel latinLib "École" = "école" ∧
    lowerCamel latinLib (lowerCamel latinLib "École") = lowerCamel latinLib "École" ∧
    lowerCamel latinLib "UserProfile" = "userProfile" :=
  ⟨by decide,
    (C17_lowerCamel_first_rune latinLib "École").2.2.2.2.2 (by
      intro r hr
      by_cases h : r = 'É'
      · subst h; decide
      · have e : latinLib.ToLowerCase r = r := by simp [latinLib, h]
        rw [e]
        have h127 : ¬ r.toNat ≤ 127 := by omega
        simp only [unicodeToLower, h127, if_false, e]),
    by decide⟩

/-- C18 fails on the code: with no output flag the file written is the input
path with its first `.sql` replaced by `.json`, so an input path without
`.sql` is its own output path: `api.yaml` gives `api.yaml`, not `api.json`,
while `schema.sql` gives `schema.json`. -/
theorem C18_output_path_shows (schemaFile : String) :
    (¬ ".sql".data <:+: schemaFile.data → outFile schemaFile "" = some schemaFile) ∧
    outFile "api.yaml" "" = some "api.yaml" ∧
    outFile "api.yaml" "" ≠ some "api.json" ∧
    outFile "schema.sql" "" = some "schema.json" ∧
    outFile "api.yaml" "-" = none ∧
    outFile "api.yaml" "out.json" = some "out.json" := by
  refine ⟨fun h => ?_, by decide, by decide, by decide, by decide, by decide⟩
  have e : stringsReplace1 schemaFile ".sql" ".json" = schemaFile := by
    apply String.ext
    simp only [stringsReplace1]
    exact replaceFirst_of_not_infix _ _ _ h
  have h1 : ¬ ("" : String) = "-" := by decide
  simp only [outFile, h1, if_false, if_true, e]

/-- C20: two build orders of the same tables, when the keys are pairwise
distinct, are sorted by key into the same list, so the two emitted data lists
are equal. -/
theorem C20_order_independent (lib : Lib) (parsed1 parsed2 : List Table)
    (hperm : parsed1.Perm parsed2) (hkeys : (parsed1.map Table.Key).Nodup) :
    sliceStable (fun a b => stringLess a.Key b.Key) parsed1 =
      sliceStable (fun a b => stringLess a.Key b.Key) parsed2 ∧
    ∀ (order1 order2 : String → List String) (doc1 doc2 : T) (meta_ : Meta),
      parseDDL lib order1 doc1 = some (parsed1, meta_) →
      parseDDL lib order2 doc2 = some (parsed2, meta_) →
      process lib order1 doc1 = process lib order2 doc2 ∧
      (process lib order1 doc1).map (FileContent.emitted lib) =
        (process lib order2 doc2).map (FileContent.emitted lib) := by
  have key : sliceStable (fun a b => stringLess a.Key b.Key) parsed1 =
      sliceStable (fun a b => stringLess a.Key b.Key) parsed2 := by
    have hp : (sliceStable (fun a b => stringLess a.Key b.Key) parsed1).Perm
        (sliceStable (fun a b => stringLess a.Key b.Key) parsed2) :=
      (sliceStable_perm _ parsed1).trans (hperm.trans (sliceStable_perm _ parsed2).symm)
    have strict : ∀ l : List Table, (l.map Table.Key).Nodup →
        l.Pairwise (fun a b => a.Key ≤ b.Key) → l.Pairwise (fun a b => a.Key < b.Key) := by
      intro l hn hs
      have hne : l.Pairwise (fun a b => a.Key ≠ b.Key) := List.pairwise_map.1 hn
      exact (hs.and hne).imp (fun h => lt_of_le_of_ne h.1 h.2)
    have hn1 : ((sliceStable (fun a b => stringLess a.Key b.Key) parsed1).map Table.Key).Nodup :=
      ((sliceStable_perm _ parsed1).map Table.Key).nodup_iff.2 hkeys
    have hn2 : ((sliceStable (fun a b => stringLess a.Key b.Key) parsed2).map Table.Key).Nodup :=
      (((sliceStable_perm _ parsed2).trans hperm.symm).map Table.Key).nodup_iff.2 hkeys
    have hs1 := strict _ hn1 (sliceStable_sorted Table.Key parsed1)
    have hs2 := strict _ hn2 (sliceStable_sorted Table.Key parsed2)
    exact @List.eq_of_perm_of_sorted Table (fun a b => a.Key < b.Key)
      ⟨fun a b h1 h2 => absurd h2 (lt_asymm h1)⟩ _ _ hp hs1 hs2
  refine ⟨key, fun order1 order2 doc1 doc2 meta_ h1 h2 => ?_⟩
  have e : process lib order1 doc1 = process lib order2 doc2 := by
    simp only [process, h1, h2, key]
  exact ⟨e, by rw [e]⟩

/-- C20 at the tables of the end-to-end example, built in two orders. -/
theorem C20_order_independent_witness :
    sliceStable (fun a b => stringLess a.Key b.Key)
        [schemaTable plainLib "Order" (objectSchema [] []),
         schemaTable plainLib "Item" (objectSchema [] []),
         schemaTable plainLib "ListOrders" (objectSchema [] [])] =
      sliceStable (fun a b => stringLess a.Key b.Key)
        [schemaTable plainLib "ListOrders" (objectSchema [] []),
         schemaTable plainLib "Order" (objectSchema [] []),
         schemaTable plainLib "Item" (objectSchema [] [])] :=
  (C20_order_independent plainLib _ _
    (by decide) (by decide)).1

end OpenapiSchemaJson
